import Mathlib

/-!
Verification of the WFST-engine specification extracted from the
pynini-book tutorial repository.  The repository's Python files are thin
call-sites into an external weighted finite-state transducer engine; the
spec describes that engine.  Definitions below are shallow embeddings:
the repository's own helper functions (`exclude`, `cascade`,
`priority_union`) are translated from `src/chapter_5.py`, and the engine
primitives they and the other claims rely on are modelled from the
spec's own description (each such definition says so in its doc
comment).
-/

namespace FstSpec

/-- Characters strings are lists of characters. -/
abbrev Str := List Char

/-- Tropical weights: `⊤` is the semiring `zero` (+infinity), `0` is `one`. -/
abbrev Trop := WithTop ℤ

/-- The tropical semiring `zero` (+infinity): absorbing for `plus` = min. -/
def wzero : Trop := ⊤

/-- The tropical semiring `one` (the free weight, numeric 0). -/
def wone : Trop := 0

/-- Tropical `plus`: numeric minimum, used across parallel paths. -/
def wplus (a b : Trop) : Trop := min a b

/-- Tropical `times`: numeric addition, used along a path. -/
def wtimes (a b : Trop) : Trop := a + b

/-- `leadsWith pat s` is true when `pat` is an initial run of `s`. -/
def leadsWith : Str → Str → Bool
  | [], _ => true
  | _ :: _, [] => false
  | p :: ps, c :: cs => p == c && leadsWith ps cs

/-- `endsWith pat s` is true when `pat` is a final run of `s`. -/
def endsWith (pat s : Str) : Bool := leadsWith pat.reverse s.reverse

/-- A rewrite rule's left context: a literal string, optionally anchored
at the beginning of the string (`[BOS]`). -/
structure LeftCtx where
  bos : Bool
  ctx : Str
deriving DecidableEq

/-- `matchLeft lc pre` checks the left context against the material
preceding a candidate site.  A `[BOS]`-anchored context must be the
entire preceding material; an unanchored one only its final run. -/
def matchLeft (lc : LeftCtx) (pre : Str) : Bool :=
  if lc.bos then pre == lc.ctx else endsWith lc.ctx pre

/-- `matchRight rc suf` checks the right context against the material
following a candidate site. -/
def matchRight (rc suf : Str) : Bool := leadsWith rc suf

/-- Worker for the simultaneous-mode rewriter: `pre` is the input
material already scanned (contexts are judged on the input string). -/
def simGo (c d : Char) (lc : LeftCtx) (rc : Str) (pre : Str) : Str → Str
  | [] => []
  | x :: xs =>
      (if x == c && matchLeft lc pre && matchRight rc xs then d else x)
        :: simGo c d lc rc (pre ++ [x]) xs

/-- Modelled from the spec: `cdrewrite` in simultaneous mode, for a
single-character replacement `c → d / lc __ rc` (the `pynini.cdrewrite`
compiler itself is not part of this repository).  Simultaneous mode
applies the replacement at all (here single-character, hence
non-overlapping) sites whose left and right contexts match in the input
string, all at once. -/
def cdrewriteSim (c d : Char) (lc : LeftCtx) (rc : Str) (s : Str) : Str :=
  simGo c d lc rc [] s

/-- Worker for the obligatory left-to-right rewriter: `pre` is the
already-rewritten output material, so that contexts created by earlier
applications are eligible for later sites. -/
def ltrGo (c d : Char) (lc : LeftCtx) (rc : Str) (pre : Str) : Str → Str
  | [] => []
  | x :: xs =>
      let fire := x == c && matchLeft lc pre && matchRight rc xs
      let y := if fire then d else x
      y :: ltrGo c d lc rc (pre ++ [y]) xs

/-- Modelled from the spec: `cdrewrite` in obligatory left-to-right
mode for a single-character replacement; overlapping candidate sites are
resolved greedily from the left, re-scanning after each application. -/
def cdrewriteLtr (c d : Char) (lc : LeftCtx) (rc : Str) (s : Str) : Str :=
  ltrGo c d lc rc [] s

/-- An output lattice, viewed through its path enumeration: the finite
list of (output string, path weight) pairs. -/
abbrev OutLattice := List (Str × Trop)

/-- Composition of a weighted input acceptor (finite list of weighted
strings) with a functional (obligatory-mode) rewrite rule: each input
path maps to its unique rewritten output at the same weight. -/
def applyRule (f : Str → Str) (inputs : List (Str × Trop)) : OutLattice :=
  inputs.map (fun p => (f p.1, p.2))

/-- The minimal path weight of a lattice (`wzero` = +infinity when empty). -/
def minWeight (L : OutLattice) : Trop :=
  L.foldr (fun p acc => wplus p.2 acc) wzero

/-- The output strings of the shortest-weight paths of a lattice. -/
def shortestOutputs (L : OutLattice) : List Str :=
  (L.filter (fun p => p.2 == minWeight L)).map Prod.fst

/-- Rule (3) of `src/chapter_5.py`: `b → a / b __ b`, simultaneous mode. -/
def rule3 : Str → Str := cdrewriteSim 'b' 'a' ⟨false, ['b']⟩ ['b']

/-- Rule (8) of `src/chapter_5.py`: `b → a / [BOS]b __ b`, obligatory
left-to-right mode. -/
def rule8 : Str → Str := cdrewriteLtr 'b' 'a' ⟨true, ['b']⟩ ['b']

/-- The lattice of rule (3) composed with the unweighted acceptor "bbb". -/
def lattice3bbb : OutLattice := applyRule rule3 [(['b', 'b', 'b'], wone)]

/-- The lattice of rule (8) composed with the unweighted acceptor "bbb". -/
def lattice8bbb : OutLattice := applyRule rule8 [(['b', 'b', 'b'], wone)]

/-- The lattice of rule (3) composed with the unweighted acceptor "bbbb". -/
def lattice3bbbb : OutLattice := applyRule rule3 [(['b', 'b', 'b', 'b'], wone)]

/-- The lattice of rule (8) composed with the unweighted acceptor "bbbb". -/
def lattice8bbbb : OutLattice := applyRule rule8 [(['b', 'b', 'b', 'b'], wone)]

/-- C1 (counterexample): on input "bbb" the simultaneous-mode rule
`b → a / b __ b` does NOT produce "aba" among its shortest outputs (the
first and last `b` lack a matching context), and the left-to-right rule
`b → a / [BOS]b __ b` produces exactly the same output set on "bbb", so
the two halves of the claim both fail at this input. -/
theorem c1_counterexample :
    ¬ ['a', 'b', 'a'] ∈ shortestOutputs lattice3bbb ∧
      shortestOutputs lattice8bbb = shortestOutputs lattice3bbb := by
  decide

/-- C1 (amended): on input "bbb" both rules yield shortest-output set
{"bab"}; the two modes do diverge, but on input "bbbb" ("baab" for
simultaneous versus "babb" for left-to-right). -/
theorem c1_rewrite_modes :
    shortestOutputs lattice3bbb = [['b', 'a', 'b']] ∧
      ['b', 'a', 'b'] ∈ shortestOutputs lattice3bbb ∧
      shortestOutputs lattice8bbb = shortestOutputs lattice3bbb ∧
      shortestOutputs lattice3bbbb = [['b', 'a', 'a', 'b']] ∧
      shortestOutputs lattice8bbbb = [['b', 'a', 'b', 'b']] ∧
      shortestOutputs lattice3bbbb ≠ shortestOutputs lattice8bbbb := by
  decide

/-- The recoverable / structural error taxonomy of the engine (§7 of the
spec); only the constructors exercised by the claims are modelled. -/
inductive EngineError where
  | CyclicAutomaton
  | AmbiguousTie
  | UnsupportedForWeighted
deriving DecidableEq

/-- The distinct output strings of a lattice attaining the minimal weight. -/
def optimalOutputs (L : OutLattice) : List Str := (shortestOutputs L).dedup

/-- Modelled from the spec: `one_top_rewrite` of the `rewrite` module
(not part of this repository) returns the single shortest-path output
string and fails with `AmbiguousTie` when more than one distinct output
string shares the minimal weight.  It is given here directly on the
output lattice of input-acceptor-composed-with-rule. -/
def one_top_rewrite (L : OutLattice) : Except EngineError Str :=
  match optimalOutputs L with
  | [s] => Except.ok s
  | _ => Except.error EngineError.AmbiguousTie

theorem mem_shortestOutputs (L : OutLattice) (s : Str) :
    s ∈ shortestOutputs L ↔ (s, minWeight L) ∈ L := by
  unfold shortestOutputs
  simp only [List.mem_map, List.mem_filter]
  constructor
  · rintro ⟨⟨s', w⟩, ⟨hmem, hw⟩, rfl⟩
    have hw' : w = minWeight L := by simpa using hw
    simpa [hw'] using hmem
  · intro h
    exact ⟨(s, minWeight L), ⟨h, by simp⟩, rfl⟩

theorem mem_optimalOutputs (L : OutLattice) (s : Str) :
    s ∈ optimalOutputs L ↔ (s, minWeight L) ∈ L := by
  rw [optimalOutputs, List.mem_dedup, mem_shortestOutputs]

theorem nodup_singleton_of_unique_mem {α : Type} (l : List α) (a : α)
    (hn : l.Nodup) (ha : a ∈ l) (hu : ∀ x ∈ l, x = a) : l = [a] := by
  cases l with
  | nil => cases ha
  | cons x t =>
      obtain rfl := hu x (List.mem_cons_self _ _)
      cases t with
      | nil => rfl
      | cons y t' =>
          obtain rfl := hu y (by simp)
          simp at hn

/-- C2: `one_top_rewrite` returns the single shortest-path output
string when exactly one distinct output string attains the minimal
lattice weight, fails with `AmbiguousTie` whenever two distinct output
strings both attain it, and in particular fails with `AmbiguousTie` on
the lattice built from the weight-3 acceptors "bbb" and "bbbb" composed
with the left-to-right rule `b → a / b __ b`. -/
theorem one_top_rewrite_spec (L : OutLattice) :
    ((∃! s : Str, (s, minWeight L) ∈ L) →
      ∃ s : Str, one_top_rewrite L = Except.ok s ∧ (s, minWeight L) ∈ L) ∧
    (∀ s₁ s₂ : Str, s₁ ≠ s₂ → (s₁, minWeight L) ∈ L → (s₂, minWeight L) ∈ L →
      one_top_rewrite L = Except.error EngineError.AmbiguousTie) ∧
    one_top_rewrite (applyRule (cdrewriteLtr 'b' 'a' ⟨false, ['b']⟩ ['b'])
        [(['b', 'b', 'b'], (3 : Trop)), (['b', 'b', 'b', 'b'], (3 : Trop))]) =
      Except.error EngineError.AmbiguousTie := by
  refine ⟨?_, ?_, by rfl⟩
  · rintro ⟨s, hs, huniq⟩
    have hopt : optimalOutputs L = [s] := by
      refine nodup_singleton_of_unique_mem _ _ (List.nodup_dedup _) ?_ ?_
      · exact (mem_optimalOutputs L s).2 hs
      · intro x hx
        exact huniq x ((mem_optimalOutputs L x).1 hx)
    refine ⟨s, ?_, hs⟩
    rw [one_top_rewrite, hopt]
  · intro s₁ s₂ hne h₁ h₂
    have h₁' : s₁ ∈ optimalOutputs L := (mem_optimalOutputs L s₁).2 h₁
    have h₂' : s₂ ∈ optimalOutputs L := (mem_optimalOutputs L s₂).2 h₂
    rcases hopt : optimalOutputs L with _ | ⟨x, _ | ⟨y, t⟩⟩
    · rw [hopt] at h₁'
      cases h₁'
    · rw [hopt] at h₁' h₂'
      simp only [List.mem_singleton] at h₁' h₂'
      exact absurd (h₁'.trans h₂'.symm) hne
    · rw [one_top_rewrite, hopt]

/-- C2 (witness): at a one-entry lattice the unique-optimum branch of
`one_top_rewrite_spec` yields an `ok` result, and at the concrete tied
lattice of the claim it yields `AmbiguousTie`. -/
theorem one_top_rewrite_spec_witness :
    (∃ s : Str, one_top_rewrite [(['x'], wone)] = Except.ok s ∧
        (s, minWeight [(['x'], wone)]) ∈ ([(['x'], wone)] : OutLattice)) ∧
    one_top_rewrite (applyRule (cdrewriteLtr 'b' 'a' ⟨false, ['b']⟩ ['b'])
        [(['b', 'b', 'b'], (3 : Trop)), (['b', 'b', 'b', 'b'], (3 : Trop))]) =
      Except.error EngineError.AmbiguousTie := by
  have huniq : ∃! s : Str,
      (s, minWeight [(['x'], wone)]) ∈ ([(['x'], wone)] : OutLattice) := by
    refine ⟨['x'], by decide, ?_⟩
    intro y hy
    simp only [List.mem_singleton, Prod.mk.injEq] at hy
    exact hy.1
  exact ⟨(one_top_rewrite_spec [(['x'], wone)]).1 huniq,
    (one_top_rewrite_spec []).2.2⟩

/-- `minWeight` really is a lower bound on the weights of a lattice. -/
theorem minWeight_le (L : OutLattice) : ∀ p ∈ L, minWeight L ≤ p.2 := by
  induction L with
  | nil => intro p hp; cases hp
  | cons q t ih =>
      intro p hp
      rcases List.mem_cons.1 hp with rfl | hp'
      · exact min_le_left _ _
      · exact le_trans (min_le_right _ _) (ih p hp')

/-- Modelled from the spec: pruned weighted determinization with a
weight threshold (the engine's determinizer is not part of this
repository), viewed through the lattice's path enumeration.  A path
survives exactly when its weight does not exceed the lattice's minimal
weight `times` the threshold; the deterministic result carries no
duplicate paths. -/
def determinizeThreshold (L : OutLattice) (w : Trop) : OutLattice :=
  (L.filter (fun p => decide (p.2 ≤ wtimes (minWeight L) w))).dedup

theorem mem_determinizeThreshold (L : OutLattice) (w : Trop) (p : Str × Trop) :
    p ∈ determinizeThreshold L w ↔ p ∈ L ∧ p.2 ≤ wtimes (minWeight L) w := by
  unfold determinizeThreshold
  rw [List.mem_dedup, List.mem_filter]
  simp

/-- C4: determinization with weight threshold equal to the semiring
`one` keeps exactly the minimal-weight paths: membership in the result
is equivalent to being a minimal-weight path of the input; when one path
is strictly better than all others the result is that single path; when
two paths tie for the optimum both survive and nothing suboptimal does. -/
theorem determinize_threshold_one_spec (L : OutLattice) :
    (∀ p : Str × Trop,
      p ∈ determinizeThreshold L wone ↔ p ∈ L ∧ p.2 = minWeight L) ∧
    (∀ p : Str × Trop, p ∈ L → p.2 = minWeight L →
      (∀ q ∈ L, q ≠ p → minWeight L < q.2) →
      ∀ q : Str × Trop, q ∈ determinizeThreshold L wone ↔ q = p) ∧
    (∀ p₁ p₂ : Str × Trop, p₁ ∈ L → p₂ ∈ L →
      p₁.2 = minWeight L → p₂.2 = minWeight L →
      p₁ ∈ determinizeThreshold L wone ∧ p₂ ∈ determinizeThreshold L wone ∧
      ∀ q ∈ determinizeThreshold L wone, q.2 = minWeight L) := by
  have hone : wtimes (minWeight L) wone = minWeight L := by
    simp [wtimes, wone]
  have hmem : ∀ p : Str × Trop,
      p ∈ determinizeThreshold L wone ↔ p ∈ L ∧ p.2 = minWeight L := by
    intro p
    rw [mem_determinizeThreshold, hone]
    constructor
    · rintro ⟨hp, hle⟩
      exact ⟨hp, le_antisymm hle (minWeight_le L p hp)⟩
    · rintro ⟨hp, heq⟩
      exact ⟨hp, le_of_eq heq⟩
  refine ⟨hmem, ?_, ?_⟩
  · intro p hp hopt hstrict q
    rw [hmem]
    constructor
    · rintro ⟨hq, hqw⟩
      by_contra hne
      have hlt := hstrict q hq hne
      rw [hqw] at hlt
      exact lt_irrefl _ hlt
    · rintro rfl
      exact ⟨hp, hopt⟩
  · intro p₁ p₂ h₁ h₂ hw₁ hw₂
    exact ⟨(hmem p₁).2 ⟨h₁, hw₁⟩, (hmem p₂).2 ⟨h₂, hw₂⟩,
      fun q hq => ((hmem q).1 hq).2⟩

/-- C4 (witness): at a lattice with a strict optimum the result is the
singleton optimal path, and at a lattice with two tied optimal paths
both survive with nothing suboptimal. -/
theorem determinize_threshold_one_witness :
    (∀ q : Str × Trop,
      q ∈ determinizeThreshold [(['a'], (0 : Trop)), (['b'], (1 : Trop))] wone ↔
        q = (['a'], (0 : Trop))) ∧
    ((['a'], (0 : Trop)) ∈
        determinizeThreshold
          [(['a'], (0 : Trop)), (['b'], (0 : Trop)), (['c'], (1 : Trop))] wone ∧
      (['b'], (0 : Trop)) ∈
        determinizeThreshold
          [(['a'], (0 : Trop)), (['b'], (0 : Trop)), (['c'], (1 : Trop))] wone ∧
      ∀ q ∈ determinizeThreshold
          [(['a'], (0 : Trop)), (['b'], (0 : Trop)), (['c'], (1 : Trop))] wone,
        q.2 = minWeight [(['a'], (0 : Trop)), (['b'], (0 : Trop)), (['c'], (1 : Trop))]) := by
  constructor
  · exact (determinize_threshold_one_spec
      [(['a'], (0 : Trop)), (['b'], (1 : Trop))]).2.1
      (['a'], (0 : Trop)) (by decide) (by decide)
      (by decide)
  · exact (determinize_threshold_one_spec
      [(['a'], (0 : Trop)), (['b'], (0 : Trop)), (['c'], (1 : Trop))]).2.2
      (['a'], (0 : Trop)) (['b'], (0 : Trop))
      (by decide) (by decide) (by decide) (by decide)

/-- `isUnweighted A` holds when every path of `A` carries the free
weight `one`. -/
def isUnweighted (A : OutLattice) : Bool := A.all (fun p => p.2 == wone)

/-- Union of two acceptors, at the level of their weighted languages. -/
abbrev union (A B : OutLattice) : OutLattice := A ++ B

/-- The language of an acceptor: its list of accepted strings. -/
abbrev langOf (A : OutLattice) : List Str := A.map Prod.fst

/-- Modelled from the spec: difference of acceptors (`A - B` =
`A ∩ complement(B)`; the engine's implementation is not part of this
repository), defined only over unweighted acceptors, failing with
`UnsupportedForWeighted` when either operand carries a non-`one`
weight. -/
def difference (A B : OutLattice) : Except EngineError OutLattice :=
  if isUnweighted A && isUnweighted B then
    Except.ok (A.filter (fun p => !(decide (p.1 ∈ langOf B))))
  else
    Except.error EngineError.UnsupportedForWeighted

theorem isUnweighted_false_iff (A : OutLattice) :
    isUnweighted A = false ↔ ∃ p ∈ A, p.2 ≠ wone := by
  unfold isUnweighted
  rw [← Bool.not_eq_true, List.all_eq_true]
  simp

/-- The concrete acceptor {"Godspeed"} of `src/chapter_3.py`. -/
def godspeedAcc : OutLattice :=
  [(['G', 'o', 'd', 's', 'p', 'e', 'e', 'd'], wone)]

/-- The concrete acceptor {"You!"} of `src/chapter_3.py`. -/
def youAcc : OutLattice := [(['Y', 'o', 'u', '!'], wone)]

/-- C5: difference fails with `UnsupportedForWeighted` as soon as one
operand carries a non-`one` weight; on unweighted acceptors
`(A ∪ B) - A` accepts exactly the strings of B's language outside A's
language; and concretely with A = {"Godspeed"}, B = {"Godspeed","You!"}
the difference accepts exactly {"You!"}. -/
theorem difference_spec :
    (∀ A B : OutLattice, ((∃ p ∈ A, p.2 ≠ wone) ∨ (∃ p ∈ B, p.2 ≠ wone)) →
      difference A B = Except.error EngineError.UnsupportedForWeighted) ∧
    (∀ A B : OutLattice, isUnweighted A = true → isUnweighted B = true →
      ∃ C : OutLattice, difference (union A B) A = Except.ok C ∧
        ∀ s : Str, s ∈ langOf C ↔ s ∈ langOf B ∧ ¬ s ∈ langOf A) ∧
    (∃ C : OutLattice,
      difference (union godspeedAcc (union godspeedAcc youAcc)) godspeedAcc =
        Except.ok C ∧ langOf C = [['Y', 'o', 'u', '!']]) := by
  refine ⟨?_, ?_, ?_⟩
  · intro A B h
    have hfail : (isUnweighted A && isUnweighted B) = false := by
      rcases h with h | h
      · rw [Bool.and_eq_false_iff]
        exact Or.inl ((isUnweighted_false_iff A).2 h)
      · rw [Bool.and_eq_false_iff]
        exact Or.inr ((isUnweighted_false_iff B).2 h)
    rw [difference, hfail]
    rfl
  · intro A B hA hB
    have hA' := hA
    have hB' := hB
    unfold isUnweighted at hA' hB'
    have hAB : isUnweighted (union A B) = true := by
      unfold isUnweighted union
      rw [List.all_append, hA', hB']
      rfl
    refine ⟨(union A B).filter (fun p => !(decide (p.1 ∈ langOf A))), ?_, ?_⟩
    · rw [difference, hAB, hA]
      rfl
    · intro s
      constructor
      · intro hs
        obtain ⟨⟨s', w⟩, hmem, rfl⟩ := List.mem_map.1 hs
        rw [List.mem_filter] at hmem
        obtain ⟨hX, hcond⟩ := hmem
        have hnotA : ¬ s' ∈ langOf A := by simpa using hcond
        rcases List.mem_append.1 hX with hAm | hBm
        · exact absurd (List.mem_map.2 ⟨(s', w), hAm, rfl⟩) hnotA
        · exact ⟨List.mem_map.2 ⟨(s', w), hBm, rfl⟩, hnotA⟩
      · rintro ⟨hBs, hnotA⟩
        obtain ⟨⟨s', w⟩, hBm, rfl⟩ := List.mem_map.1 hBs
        refine List.mem_map.2 ⟨(s', w),
          List.mem_filter.2 ⟨List.mem_append.2 (Or.inr hBm), ?_⟩, rfl⟩
        simpa using hnotA
  · exact ⟨[(['Y', 'o', 'u', '!'], wone)], by rfl, by decide⟩

/-- C5 (witness): the weighted-operand branch fired at a concrete
weighted acceptor, and the `(A ∪ B) - A` law instantiated at the
Godspeed/You! example. -/
theorem difference_spec_witness :
    difference [(['a'], (2 : Trop))] godspeedAcc =
      Except.error EngineError.UnsupportedForWeighted ∧
    (∃ C : OutLattice, difference (union godspeedAcc youAcc) godspeedAcc =
      Except.ok C ∧
      ∀ s : Str, s ∈ langOf C ↔ s ∈ langOf youAcc ∧ ¬ s ∈ langOf godspeedAcc) := by
  constructor
  · exact difference_spec.1 [(['a'], (2 : Trop))] godspeedAcc
      (Or.inl ⟨(['a'], (2 : Trop)), by decide, by decide⟩)
  · exact difference_spec.2.1 godspeedAcc youAcc (by decide) (by decide)

/-- An unweighted string-to-string relation, as the finite list of its
(input, output) pairs; the view of a transducer through its path
enumeration. -/
abbrev Rel := List (Str × Str)

/-- Composition of an input acceptor (finite list of strings) with a
relation: keeps exactly the relation pairs whose input side is accepted.
This is (the path-level view of) `istring @ rule` in the source; pynini
returns a trimmed automaton, whose start state is the `NO_STATE_ID`
sentinel exactly when the relation is empty. -/
def composeAcc (I : List Str) (R : Rel) : Rel :=
  R.filter (fun p => decide (p.1 ∈ I))

/-- The output projection (with epsilon removal) of a lattice:
`lattice.project("output").rmepsilon()` in the source. -/
def outputsOf (R : Rel) : List Str := R.map Prod.snd

/-- Composition of two relations: the relational join through the
shared middle string. -/
def relComp (R S : Rel) : Rel :=
  R.flatMap (fun p => (S.filter (fun q => q.1 == p.2)).map (fun q => (p.1, q.2)))

/-- `exclude` from `src/chapter_5.py`: try the rules in order, skip a
rule when the composition lattice is empty (its start state is the
`NO_STATE_ID` sentinel), return the output projection of the first
non-empty lattice, and `none` when the loop falls through. -/
def exclude (istring : List Str) : List Rel → Option (List Str)
  | [] => none
  | rule :: rest =>
      let lattice := composeAcc istring rule
      if lattice.isEmpty then exclude istring rest
      else some (outputsOf lattice)

/-- `cascade` from `src/chapter_5.py`: iteratively compose the current
lattice with each rule, assert the lattice is non-empty (modelled as
returning `none` on assertion failure), and project to the output side
with epsilon removal. -/
def cascade (istring : List Str) : List Rel → Option (List Str)
  | [] => some istring
  | rule :: rest =>
      let lattice := composeAcc istring rule
      if lattice.isEmpty then none
      else cascade (outputsOf lattice) rest

/-- Left-nested composition of a non-empty rule sequence, starting from
`R`: the combined transducer `r1 @ r2 @ ...` of `run_cascade`. -/
def composeAllFrom (R : Rel) : List Rel → Rel
  | [] => R
  | S :: rest => composeAllFrom (relComp R S) rest

/-- `priority_union` from `src/chapter_5.py`: the union of `mu` with
`(sigma_star - project(mu, "input")) @ nu`; the subtracted acceptor is
`sigma_star` (modelled as a decidable string predicate) minus the input
projection of `mu`, and composing that acceptor with `nu` restricts `nu`
to the surviving inputs. -/
def priority_union (mu nu : Rel) (sigma_star : Str → Bool) : Rel :=
  mu ++ nu.filter
    (fun p => sigma_star p.1 && !(decide (p.1 ∈ mu.map Prod.fst)))

theorem mem_outputsOf (R : Rel) (s : Str) :
    s ∈ outputsOf R ↔ ∃ a : Str, (a, s) ∈ R := by
  unfold outputsOf
  rw [List.mem_map]
  constructor
  · rintro ⟨⟨a, b⟩, hmem, rfl⟩
    exact ⟨a, hmem⟩
  · rintro ⟨a, hmem⟩
    exact ⟨(a, s), hmem, rfl⟩

theorem mem_composeAcc (I : List Str) (R : Rel) (p : Str × Str) :
    p ∈ composeAcc I R ↔ p ∈ R ∧ p.1 ∈ I := by
  unfold composeAcc
  rw [List.mem_filter]
  simp

theorem mem_relComp (R S : Rel) (a c : Str) :
    (a, c) ∈ relComp R S ↔ ∃ b : Str, (a, b) ∈ R ∧ (b, c) ∈ S := by
  unfold relComp
  rw [List.mem_flatMap]
  constructor
  · rintro ⟨⟨a', b⟩, hR, hm⟩
    rw [List.mem_map] at hm
    obtain ⟨⟨b', c'⟩, hq, heq⟩ := hm
    rw [List.mem_filter] at hq
    obtain ⟨hS, hb⟩ := hq
    have hb' : b' = b := by simpa using hb
    injection heq with h1 h2
    subst h1
    subst h2
    subst hb'
    exact ⟨b', hR, hS⟩
  · rintro ⟨b, hR, hS⟩
    refine ⟨(a, b), hR, List.mem_map.2 ⟨(b, c), List.mem_filter.2 ⟨hS, ?_⟩, rfl⟩⟩
    simp

/-- `chainMem rules a s`: the string `a` rewrites to `s` through the
rule relations in sequence. -/
def chainMem : List Rel → Str → Str → Prop
  | [], a, s => a = s
  | R :: rest, a, s => ∃ b : Str, (a, b) ∈ R ∧ chainMem rest b s

theorem chainMem_nil (a s : Str) : chainMem [] a s ↔ a = s := Iff.rfl

theorem chainMem_cons (R : Rel) (rest : List Rel) (a s : Str) :
    chainMem (R :: rest) a s ↔ ∃ b : Str, (a, b) ∈ R ∧ chainMem rest b s :=
  Iff.rfl

theorem mem_composeAllFrom (rest : List Rel) :
    ∀ (R : Rel) (a s : Str),
      (a, s) ∈ composeAllFrom R rest ↔ ∃ b : Str, (a, b) ∈ R ∧ chainMem rest b s := by
  induction rest with
  | nil =>
      intro R a s
      unfold composeAllFrom
      simp only [chainMem_nil]
      constructor
      · intro h; exact ⟨s, h, rfl⟩
      · rintro ⟨b, hb, rfl⟩; exact hb
  | cons S t ih =>
      intro R a s
      unfold composeAllFrom
      rw [ih]
      simp only [chainMem_cons]
      constructor
      · rintro ⟨b, hb, hchain⟩
        obtain ⟨c, hc, hcb⟩ := (mem_relComp R S a b).1 hb
        exact ⟨c, hc, b, hcb, hchain⟩
      · rintro ⟨c, hc, b, hcb, hchain⟩
        exact ⟨b, (mem_relComp R S a b).2 ⟨c, hc, hcb⟩, hchain⟩

theorem cascade_chain (rules : List Rel) :
    ∀ (I O : List Str), cascade I rules = some O →
      ∀ s : Str, s ∈ O ↔ ∃ a : Str, a ∈ I ∧ chainMem rules a s := by
  induction rules with
  | nil =>
      intro I O h s
      unfold cascade at h
      injection h with h
      subst h
      simp only [chainMem_nil]
      constructor
      · intro hs; exact ⟨s, hs, rfl⟩
      · rintro ⟨a, ha, rfl⟩; exact ha
  | cons R t ih =>
      intro I O h s
      unfold cascade at h
      by_cases hemp : (composeAcc I R).isEmpty
      · rw [if_pos hemp] at h
        cases h
      · rw [if_neg hemp] at h
        rw [ih _ _ h s]
        simp only [chainMem_cons]
        constructor
        · rintro ⟨b, hb, hchain⟩
          obtain ⟨a, hab⟩ := (mem_outputsOf _ b).1 hb
          obtain ⟨hR, haI⟩ := (mem_composeAcc I R (a, b)).1 hab
          exact ⟨a, haI, b, hR, hchain⟩
        · rintro ⟨a, haI, b, hR, hchain⟩
          refine ⟨b, (mem_outputsOf _ b).2 ⟨a, ?_⟩, hchain⟩
          exact (mem_composeAcc I R (a, b)).2 ⟨hR, haI⟩

/-- C9: when every intermediate lattice is non-empty (so the source's
assertions pass and `cascade` returns a result), the looped cascade of
`src/chapter_5.py` accepts exactly the same output strings as first
composing all the rules into the single transducer `r1 @ r2 @ ...` and
composing the input with it. -/
theorem cascade_spec (I : List Str) (r : Rel) (rest : List Rel) (O : List Str)
    (h : cascade I (r :: rest) = some O) :
    ∀ s : Str, s ∈ O ↔ s ∈ outputsOf (composeAcc I (composeAllFrom r rest)) := by
  intro s
  rw [cascade_chain (r :: rest) I O h s, mem_outputsOf]
  constructor
  · rintro ⟨a, haI, hchain⟩
    refine ⟨a, (mem_composeAcc I _ (a, s)).2 ⟨?_, haI⟩⟩
    rw [mem_composeAllFrom]
    exact hchain
  · rintro ⟨a, hmem⟩
    obtain ⟨hall, haI⟩ := (mem_composeAcc I _ (a, s)).1 hmem
    rw [mem_composeAllFrom] at hall
    exact ⟨a, haI, hall⟩

/-- C9 (witness): `cascade_spec` applied to the two-rule cascade
a↦b then b↦c on input {"a"}, evaluated at the output string "c". -/
theorem cascade_spec_witness :
    ['c'] ∈ ([['c']] : List Str) ↔
      ['c'] ∈ outputsOf (composeAcc [['a']]
        (composeAllFrom [(['a'], ['b'])] [[(['b'], ['c'])]])) :=
  cascade_spec [['a']] [(['a'], ['b'])] [[(['b'], ['c'])]] [['c']] (by rfl) ['c']

/-- C8: `exclude` returns `none` exactly when the composition of the
input with every rule in the list is empty, and otherwise returns the
output projection of the composition with the first rule (in list
order) whose composition lattice is non-empty. -/
theorem exclude_spec (I : List Str) (rules : List Rel) :
    (exclude I rules = none ↔ ∀ r ∈ rules, composeAcc I r = []) ∧
    (∀ k : ℕ, ∀ hk : k < rules.length,
      (∀ j : ℕ, (hj : j < k) → composeAcc I (rules.get ⟨j, lt_trans hj hk⟩) = []) →
      composeAcc I (rules.get ⟨k, hk⟩) ≠ [] →
      exclude I rules = some (outputsOf (composeAcc I (rules.get ⟨k, hk⟩)))) := by
  induction rules with
  | nil =>
      refine ⟨?_, ?_⟩
      · simp [exclude]
      · intro k hk
        exact absurd hk (Nat.not_lt_zero k)
  | cons r rest ih =>
      constructor
      · unfold exclude
        by_cases hemp : (composeAcc I r).isEmpty
        · rw [if_pos hemp, ih.1]
          have hr : composeAcc I r = [] := List.isEmpty_iff.1 hemp
          constructor
          · intro hall r' hr'
            rcases List.mem_cons.1 hr' with rfl | hmem
            · exact hr
            · exact hall r' hmem
          · intro hall r' hr'
            exact hall r' (List.mem_cons_of_mem _ hr')
        · rw [if_neg hemp]
          constructor
          · intro h; cases h
          · intro hall
            exact absurd (List.isEmpty_iff.2 (hall r (List.mem_cons_self _ _))) hemp
      · intro k hk hprev hk'
        cases k with
        | zero =>
            have hemp : ¬ (composeAcc I r).isEmpty = true := by
              intro h
              exact hk' (List.isEmpty_iff.1 h)
            unfold exclude
            rw [if_neg hemp]
            rfl
        | succ k' =>
            have h0 : composeAcc I r = [] := hprev 0 (Nat.succ_pos k')
            unfold exclude
            rw [if_pos (List.isEmpty_iff.2 h0)]
            have hk'' : k' < rest.length := Nat.lt_of_succ_lt_succ hk
            exact ih.2 k' hk''
              (fun j hj => hprev (j + 1) (Nat.succ_lt_succ hj)) hk'

/-- C8 (witness): `exclude` on input {"a"} skips a rule whose
composition is empty and returns the output projection of the first
non-empty composition; and returns `none` when every composition is
empty. -/
theorem exclude_spec_witness :
    exclude [['a']] [[(['b'], ['c'])], [(['a'], ['d'])]] =
      some (outputsOf (composeAcc [['a']]
        ([[(['b'], ['c'])], [(['a'], ['d'])]].get ⟨1, by decide⟩))) ∧
    exclude [['a']] [[(['b'], ['c'])]] = none := by
  constructor
  · refine (exclude_spec [['a']] [[(['b'], ['c'])], [(['a'], ['d'])]]).2 1
      (by decide) ?_ (by decide)
    intro j hj
    have hj0 : j = 0 := Nat.lt_one_iff.1 hj
    subst hj0
    show composeAcc [['a']] [(['b'], ['c'])] = []
    decide
  · refine (exclude_spec [['a']] [[(['b'], ['c'])]]).1.2 ?_
    intro r' hr'
    have hr0 : r' = [(['b'], ['c'])] := List.mem_singleton.1 hr'
    subst hr0
    decide

/-- C10: `priority_union` maps every input in the domain of `mu` to
exactly `mu`'s outputs (excluding `nu`'s), and every input outside that
domain to exactly `nu`'s outputs, provided `nu` relates only strings of
`sigma_star` (the relations are over the alphabet closure). -/
theorem priority_union_spec (mu nu : Rel) (sigma_star : Str → Bool)
    (hnu : ∀ p ∈ nu, sigma_star p.1 = true) :
    (∀ x : Str, x ∈ mu.map Prod.fst →
      ∀ y : Str, (x, y) ∈ priority_union mu nu sigma_star ↔ (x, y) ∈ mu) ∧
    (∀ x : Str, ¬ x ∈ mu.map Prod.fst →
      ∀ y : Str, (x, y) ∈ priority_union mu nu sigma_star ↔ (x, y) ∈ nu) := by
  constructor
  · intro x hx y
    unfold priority_union
    rw [List.mem_append]
    constructor
    · rintro (h | h)
      · exact h
      · rw [List.mem_filter] at h
        obtain ⟨-, hcond⟩ := h
        rw [Bool.and_eq_true] at hcond
        exact absurd hx (by simpa using hcond.2)
    · exact Or.inl
  · intro x hx y
    unfold priority_union
    rw [List.mem_append]
    constructor
    · rintro (h | h)
      · exact absurd (List.mem_map.2 ⟨(x, y), h, rfl⟩) hx
      · exact (List.mem_filter.1 h).1
    · intro h
      refine Or.inr (List.mem_filter.2 ⟨h, ?_⟩)
      rw [Bool.and_eq_true]
      exact ⟨hnu (x, y) h, by simpa using hx⟩

/-- C10 (witness): with μ = {a↦b}, ν = {a↦z, c↦d} over Σ* = all
strings, the priority union keeps μ's output for "a" (excluding ν's)
and ν's output for "c". -/
theorem priority_union_spec_witness :
    ((['a'], ['z']) ∈
        priority_union [(['a'], ['b'])] [(['a'], ['z']), (['c'], ['d'])]
          (fun _ => true) ↔ (['a'], ['z']) ∈ ([(['a'], ['b'])] : Rel)) ∧
    ((['c'], ['d']) ∈
        priority_union [(['a'], ['b'])] [(['a'], ['z']), (['c'], ['d'])]
          (fun _ => true) ↔
      (['c'], ['d']) ∈ ([(['a'], ['z']), (['c'], ['d'])] : Rel)) := by
  constructor
  · exact (priority_union_spec [(['a'], ['b'])] [(['a'], ['z']), (['c'], ['d'])]
      (fun _ => true) (by intro p hp; rfl)).1 ['a'] (by decide) ['z']
  · exact (priority_union_spec [(['a'], ['b'])] [(['a'], ['z']), (['c'], ['d'])]
      (fun _ => true) (by intro p hp; rfl)).2 ['c'] (by decide) ['d']

/-- An automaton arc: input label, output label, weight, destination
state (label 0 is epsilon). -/
structure Arc where
  ilabel : Nat
  olabel : Nat
  weight : Trop
  dest : Nat
deriving DecidableEq

/-- Modelled from the spec: the automaton store.  State `q`'s arcs are
the `q`-th entry of `arcs` (no arcs beyond the state count); its final
weight is the `q`-th entry of `finals` (`wzero` = non-accepting when
absent); `start` is the optional start state. -/
structure Automaton where
  arcs : List (List Arc)
  finals : List Trop
  start : Option Nat
deriving DecidableEq

/-- The arcs leaving state `q`. -/
def arcsOf (A : Automaton) (q : Nat) : List Arc := A.arcs.getD q []

/-- The final weight of state `q` (`wzero` when non-accepting). -/
def finalWeight (A : Automaton) (q : Nat) : Trop := A.finals.getD q wzero

/-- The "no state" sentinel returned by the start query on an automaton
with no start state. -/
def NO_STATE_ID : Int := -1

/-- The start-state query: the start state's index, or the
`NO_STATE_ID` sentinel when the automaton has no start state. -/
def startQuery (A : Automaton) : Int :=
  match A.start with
  | none => NO_STATE_ID
  | some q => (q : Int)

/-- A freshly constructed empty automaton (`pynini.Fst()`). -/
def emptyFst : Automaton := ⟨[], [], none⟩

/-- Unweighted acceptance from a state: the label sequence of some path
to a final state, epsilon arcs consuming nothing. -/
inductive Accepts (A : Automaton) : Nat → List Nat → Prop
  | fin (q : Nat) : finalWeight A q ≠ wzero → Accepts A q []
  | step (q : Nat) (a : Arc) (rest : List Nat) : a ∈ arcsOf A q →
      a.ilabel ≠ 0 → Accepts A a.dest rest → Accepts A q (a.ilabel :: rest)
  | eps (q : Nat) (a : Arc) (s : List Nat) : a ∈ arcsOf A q →
      a.ilabel = 0 → Accepts A a.dest s → Accepts A q s

/-- The automaton accepts the string `s` (from its start state). -/
def accepts (A : Automaton) (s : List Nat) : Prop :=
  ∃ q : Nat, A.start = some q ∧ Accepts A q s

/-- C7: an automaton with no start state accepts nothing and its start
query returns the `NO_STATE_ID` sentinel (a freshly constructed empty
automaton in particular); conversely, any automaton accepting at least
one string has a start query different from `NO_STATE_ID`. -/
theorem start_sentinel_spec (A : Automaton) :
    (A.start = none → (∀ s : List Nat, ¬ accepts A s) ∧
      startQuery A = NO_STATE_ID) ∧
    startQuery emptyFst = NO_STATE_ID ∧
    (∀ s : List Nat, accepts A s → startQuery A ≠ NO_STATE_ID) := by
  refine ⟨?_, rfl, ?_⟩
  · intro hnone
    constructor
    · rintro s ⟨q, hq, -⟩
      rw [hnone] at hq
      cases hq
    · rw [startQuery, hnone]
  · rintro s ⟨q, hq, -⟩ hsent
    rw [startQuery, hq] at hsent
    have hsent' : (q : Int) = NO_STATE_ID := hsent
    have : (0 : Int) ≤ (q : Int) := Int.natCast_nonneg q
    rw [hsent'] at this
    exact absurd this (by decide)

/-- A one-state automaton accepting exactly the empty string. -/
def oneStateFst : Automaton := ⟨[[]], [wone], some 0⟩

/-- C7 (witness): `start_sentinel_spec` applied to the empty automaton
(no start, accepts nothing, sentinel start query) and to a concrete
accepting automaton (non-sentinel start query). -/
theorem start_sentinel_spec_witness :
    ((∀ s : List Nat, ¬ accepts emptyFst s) ∧
      startQuery emptyFst = NO_STATE_ID) ∧
    startQuery oneStateFst ≠ NO_STATE_ID := by
  constructor
  · exact (start_sentinel_spec emptyFst).1 rfl
  · refine (start_sentinel_spec oneStateFst).2.2 [] ⟨0, rfl, Accepts.fin 0 ?_⟩
    decide

/-- The largest destination-plus-one mentioned in a list of arcs. -/
def maxDestL (l : List Arc) : Nat := l.foldr (fun a m => max (a.dest + 1) m) 0

/-- A strict upper bound on every state index relevant to `A`: its
state count plus the largest arc destination. -/
def bound (A : Automaton) : Nat :=
  A.arcs.length + A.arcs.foldr (fun l m => max (maxDestL l) m) 0

theorem le_maxDestL (l : List Arc) : ∀ a ∈ l, a.dest + 1 ≤ maxDestL l := by
  induction l with
  | nil => intro a ha; cases ha
  | cons b t ih =>
      intro a ha
      rcases List.mem_cons.1 ha with rfl | ha'
      · exact le_max_left _ _
      · exact le_trans (ih a ha') (le_max_right _ _)

theorem arcsOf_subset_mem (A : Automaton) (q : Nat) :
    ∀ a ∈ arcsOf A q, ∃ l ∈ A.arcs, a ∈ l := by
  intro a h
  rw [arcsOf, List.getD_eq_getElem?_getD] at h
  rcases hg : A.arcs[q]? with _ | t
  · rw [hg] at h; cases h
  · rw [hg] at h
    exact ⟨t, List.getElem?_mem hg, h⟩

theorem le_foldr_maxDest (ls : List (List Arc)) :
    ∀ l ∈ ls, maxDestL l ≤ ls.foldr (fun l m => max (maxDestL l) m) 0 := by
  induction ls with
  | nil => intro l hl; cases hl
  | cons x t ih =>
      intro l hl
      rcases List.mem_cons.1 hl with rfl | hl'
      · exact le_max_left _ _
      · exact le_trans (ih l hl') (le_max_right _ _)

theorem dest_lt_bound (A : Automaton) (q : Nat) :
    ∀ a ∈ arcsOf A q, a.dest < bound A := by
  intro a ha
  obtain ⟨l, hl, hal⟩ := arcsOf_subset_mem A q a ha
  have h1 : a.dest + 1 ≤ maxDestL l := le_maxDestL l a hal
  have h2 : maxDestL l ≤ A.arcs.foldr (fun l m => max (maxDestL l) m) 0 :=
    le_foldr_maxDest A.arcs l hl
  unfold bound
  omega

theorem arcsOf_eq_nil_of_le (A : Automaton) (q : Nat)
    (h : A.arcs.length ≤ q) : arcsOf A q = [] :=
  List.getD_eq_default _ _ h

/-- One step of the reachability relation: an arc from `p` to `q`. -/
def stepRel (A : Automaton) (p q : Nat) : Prop := ∃ a ∈ arcsOf A p, a.dest = q

/-- One round of forward reachability: a state set together with every
arc destination leaving it. -/
def stepSet (A : Automaton) (S : Finset ℕ) : Finset ℕ :=
  S ∪ S.biUnion (fun q => ((arcsOf A q).map Arc.dest).toFinset)

/-- Every state index relevant to reachability from `q`. -/
def stateSpace (A : Automaton) (q : Nat) : Finset ℕ :=
  insert q (Finset.range (bound A))

/-- The set of states reachable from `q`, by saturating `stepSet`. -/
def reachSet (A : Automaton) (q : Nat) : Finset ℕ :=
  (stepSet A)^[(stateSpace A q).card] {q}

theorem mem_stepSet (A : Automaton) (S : Finset ℕ) (p : Nat) :
    p ∈ stepSet A S ↔ p ∈ S ∨ ∃ r ∈ S, stepRel A r p := by
  unfold stepSet stepRel
  rw [Finset.mem_union, Finset.mem_biUnion]
  apply or_congr_right
  constructor
  · rintro ⟨r, hr, hp⟩
    rw [List.mem_toFinset, List.mem_map] at hp
    obtain ⟨a, ha, rfl⟩ := hp
    exact ⟨r, hr, a, ha, rfl⟩
  · rintro ⟨r, hr, a, ha, rfl⟩
    exact ⟨r, hr, List.mem_toFinset.2 (List.mem_map.2 ⟨a, ha, rfl⟩)⟩

theorem stepSet_infl (A : Automaton) (S : Finset ℕ) : S ⊆ stepSet A S :=
  Finset.subset_union_left

theorem stepSet_closed (A : Automaton) (q : Nat) (S : Finset ℕ)
    (hS : S ⊆ stateSpace A q) : stepSet A S ⊆ stateSpace A q := by
  intro x hx
  rcases (mem_stepSet A S x).1 hx with hx' | ⟨r, -, a, ha, rfl⟩
  · exact hS hx'
  · exact Finset.mem_insert_of_mem (Finset.mem_range.2 (dest_lt_bound A r a ha))

theorem subset_iterate (A : Automaton) (S : Finset ℕ) :
    ∀ k : ℕ, S ⊆ (stepSet A)^[k] S := by
  intro k
  induction k with
  | zero => exact subset_rfl
  | succ n ih =>
      rw [Function.iterate_succ_apply']
      exact subset_trans ih (stepSet_infl A _)

theorem iterate_subset_stateSpace (A : Automaton) (q : Nat) :
    ∀ k : ℕ, (stepSet A)^[k] {q} ⊆ stateSpace A q := by
  intro k
  induction k with
  | zero =>
      rw [Function.iterate_zero_apply]
      exact Finset.singleton_subset_iff.2 (Finset.mem_insert_self q _)
  | succ n ih =>
      rw [Function.iterate_succ_apply']
      exact stepSet_closed A q _ ih

theorem reachSet_fix (A : Automaton) (q : Nat) :
    stepSet A (reachSet A q) = reachSet A q := by
  have hkey : ∃ i : ℕ, i ≤ (stateSpace A q).card ∧
      (stepSet A)^[i] {q} = (stepSet A)^[i + 1] {q} := by
    by_contra hcon
    push_neg at hcon
    have grow : ∀ i : ℕ, i ≤ (stateSpace A q).card + 1 →
        i ≤ ((stepSet A)^[i] {q}).card := by
      intro i
      induction i with
      | zero => intro hi; exact Nat.zero_le _
      | succ n ih =>
          intro hi
          have hnlt : n ≤ (stateSpace A q).card := by omega
          have hne := hcon n hnlt
          have hsub : (stepSet A)^[n] {q} ⊆ (stepSet A)^[n + 1] {q} := by
            rw [Function.iterate_succ_apply']
            exact stepSet_infl A _
          have hss := Finset.card_lt_card (lt_of_le_of_ne hsub hne)
          have hn := ih (by omega)
          omega
    have h1 := grow ((stateSpace A q).card + 1) le_rfl
    have h2 : ((stepSet A)^[(stateSpace A q).card + 1] {q}).card ≤
        (stateSpace A q).card :=
      Finset.card_le_card (iterate_subset_stateSpace A q _)
    omega
  obtain ⟨i, hi, hfix⟩ := hkey
  have stable : ∀ j : ℕ, i ≤ j → (stepSet A)^[j] {q} = (stepSet A)^[i] {q} := by
    intro j
    induction j with
    | zero =>
        intro hj
        obtain rfl : i = 0 := Nat.le_zero.1 hj
        rfl
    | succ n ih =>
        intro hj
        rcases Nat.lt_or_ge i (n + 1) with hlt | hge
        · have hin : i ≤ n := Nat.lt_succ_iff.1 hlt
          rw [Function.iterate_succ_apply', ih hin]
          exact (Function.iterate_succ_apply' (stepSet A) i {q}).symm.trans hfix.symm
        · obtain rfl : i = n + 1 := le_antisymm hj hge
          rfl
  unfold reachSet
  rw [stable ((stateSpace A q).card) hi]
  exact (Function.iterate_succ_apply' (stepSet A) i {q}).symm.trans hfix.symm

theorem mem_reachSet (A : Automaton) (q p : Nat) :
    p ∈ reachSet A q ↔ Relation.ReflTransGen (stepRel A) q p := by
  constructor
  · have sound : ∀ k : ℕ, ∀ x : ℕ, x ∈ (stepSet A)^[k] {q} →
        Relation.ReflTransGen (stepRel A) q x := by
      intro k
      induction k with
      | zero =>
          intro x hx
          obtain rfl := Finset.mem_singleton.1 hx
          exact Relation.ReflTransGen.refl
      | succ n ih =>
          intro x hx
          rw [Function.iterate_succ_apply'] at hx
          rcases (mem_stepSet A _ x).1 hx with hx' | ⟨r, hr, hstep⟩
          · exact ih x hx'
          · exact (ih r hr).tail hstep
    exact sound _ p
  · intro h
    induction h with
    | refl =>
        exact subset_iterate A {q} _ (Finset.mem_singleton_self q)
    | tail hab hbc ih =>
        rw [← reachSet_fix A q]
        exact (mem_stepSet A _ _).2 (Or.inr ⟨_, ih, hbc⟩)

/-- `q` lies on a cycle: some arc out of `q` reaches back to `q`. -/
def cycleAtB (A : Automaton) (q : Nat) : Bool :=
  (arcsOf A q).any (fun a => decide (q ∈ reachSet A a.dest))

theorem cycleAtB_iff (A : Automaton) (q : Nat) :
    cycleAtB A q = true ↔ Relation.TransGen (stepRel A) q q := by
  unfold cycleAtB
  rw [List.any_eq_true]
  constructor
  · rintro ⟨a, ha, hdec⟩
    have hre : q ∈ reachSet A a.dest := of_decide_eq_true hdec
    exact Relation.TransGen.head' ⟨a, ha, rfl⟩ ((mem_reachSet A a.dest q).1 hre)
  · intro htg
    obtain ⟨b, ⟨a, ha, rfl⟩, hrtg⟩ := Relation.TransGen.head'_iff.1 htg
    exact ⟨a, ha, decide_eq_true ((mem_reachSet A a.dest q).2 hrtg)⟩

/-- The cyclicity precondition check of the shortest-distance
operation: some state reachable from the start lies on a cycle and
reaches a final state. -/
def hasBadCycleB (A : Automaton) : Bool :=
  match A.start with
  | none => false
  | some s => decide (∃ q ∈ reachSet A s, cycleAtB A q = true ∧
      ∃ t ∈ reachSet A q, finalWeight A t ≠ wzero)

/-- One relaxation of the weight-to-final map: combine (with `plus`)
the state's final weight with, for each arc, the arc weight `times` the
destination's current weight-to-final. -/
def deltaStep (A : Automaton) (d : Nat → Trop) (q : Nat) : Trop :=
  wplus (finalWeight A q)
    ((arcsOf A q).foldr (fun a acc => wplus (wtimes a.weight (d a.dest)) acc) wzero)

/-- `k`-fold relaxation, starting from the final weights. -/
def deltaIter (A : Automaton) : Nat → Nat → Trop
  | 0 => fun q => finalWeight A q
  | k + 1 => deltaStep A (deltaIter A k)

/-- Modelled from the spec: single-source shortest distance (the
engine's implementation is not part of this repository).  Requires an
acyclic automaton — fails with `CyclicAutomaton` when a cycle is
reachable from the start and reaches a final state — and otherwise
returns the per-state weight-to-final vector, which on acyclic input is
the fixed point reached by relaxation in reverse topological order. -/
def shortestdistance (A : Automaton) : Except EngineError (List Trop) :=
  if hasBadCycleB A then Except.error EngineError.CyclicAutomaton
  else Except.ok ((List.range A.arcs.length).map (deltaIter A (bound A + 1)))

theorem foldr_wplus_congr (l : List Arc) (f g : Nat → Trop)
    (h : ∀ a ∈ l, f a.dest = g a.dest) :
    l.foldr (fun a acc => wplus (wtimes a.weight (f a.dest)) acc) wzero =
      l.foldr (fun a acc => wplus (wtimes a.weight (g a.dest)) acc) wzero := by
  induction l with
  | nil => rfl
  | cons a t ih =>
      have ha := h a (List.mem_cons_self a t)
      have ht := ih (fun b hb => h b (List.mem_cons_of_mem a hb))
      simp only [List.foldr_cons, ha, ht]

theorem rank_pos (A : Automaton) (q : Nat) : 0 < (reachSet A q).card :=
  Finset.card_pos.2 ⟨q, (mem_reachSet A q q).2 Relation.ReflTransGen.refl⟩

theorem reachSet_mono (A : Automaton) (q p : Nat)
    (h : Relation.ReflTransGen (stepRel A) q p) :
    reachSet A p ⊆ reachSet A q := by
  intro x hx
  exact (mem_reachSet A q x).2 (h.trans ((mem_reachSet A p x).1 hx))

theorem rank_lt_of_arc (A : Automaton)
    (hacyc : ∀ r : Nat, ¬ Relation.TransGen (stepRel A) r r)
    (q : Nat) (a : Arc) (ha : a ∈ arcsOf A q) :
    (reachSet A a.dest).card < (reachSet A q).card := by
  have hsub : reachSet A a.dest ⊆ reachSet A q :=
    reachSet_mono A q a.dest (Relation.ReflTransGen.single ⟨a, ha, rfl⟩)
  have hq : q ∈ reachSet A q := (mem_reachSet A q q).2 Relation.ReflTransGen.refl
  have hnq : q ∉ reachSet A a.dest := by
    intro hin
    exact hacyc q
      (Relation.TransGen.head' ⟨a, ha, rfl⟩ ((mem_reachSet A a.dest q).1 hin))
  exact Finset.card_lt_card
    ((Finset.ssubset_iff_of_subset hsub).2 ⟨q, hq, hnq⟩)

theorem delta_succ (A : Automaton)
    (hacyc : ∀ r : Nat, ¬ Relation.TransGen (stepRel A) r r) :
    ∀ k : ℕ, ∀ q : Nat, (reachSet A q).card ≤ k →
      deltaIter A k q = deltaIter A (k + 1) q := by
  intro k
  induction k with
  | zero =>
      intro q hq
      exact absurd hq (by have := rank_pos A q; omega)
  | succ m ih =>
      intro q hq
      show deltaStep A (deltaIter A m) q = deltaStep A (deltaIter A (m + 1)) q
      unfold deltaStep
      congr 1
      apply foldr_wplus_congr
      intro a ha
      have hlt := rank_lt_of_arc A hacyc q a ha
      exact ih a.dest (by omega)

theorem rank_le_bound (A : Automaton) (q : Nat) :
    (reachSet A q).card ≤ bound A + 1 := by
  have h1 : (reachSet A q).card ≤ (stateSpace A q).card :=
    Finset.card_le_card (iterate_subset_stateSpace A q _)
  have h2 : (stateSpace A q).card ≤ bound A + 1 := by
    have := Finset.card_insert_le q (Finset.range (bound A))
    rw [Finset.card_range] at this
    exact this
  omega

theorem getD_range_map (n : Nat) (f : Nat → Trop) (q : Nat) (hq : q < n) :
    ((List.range n).map f).getD q wzero = f q := by
  rw [List.getD_eq_getElem?_getD, List.getElem?_map, List.getElem?_range hq]
  rfl

/-- C3: shortest distance fails with `CyclicAutomaton` on every
automaton with a cycle that is reachable from the start and reaches a
final state; on every acyclic automaton (with in-range arc
destinations) it succeeds and the returned per-state weights-to-final
satisfy the reverse-topological fixed-point equations: each state's
value combines (via `plus`) its final weight with arc weight `times`
destination value for each outgoing arc. -/
theorem shortestdistance_spec (A : Automaton) :
    ((∃ s : Nat, A.start = some s ∧ ∃ q : Nat,
        Relation.ReflTransGen (stepRel A) s q ∧
        Relation.TransGen (stepRel A) q q ∧
        ∃ t : Nat, Relation.ReflTransGen (stepRel A) q t ∧
          finalWeight A t ≠ wzero) →
      shortestdistance A = Except.error EngineError.CyclicAutomaton) ∧
    ((∀ r : Nat, ¬ Relation.TransGen (stepRel A) r r) →
      (∀ q : Nat, ∀ a ∈ arcsOf A q, a.dest < A.arcs.length) →
      ∃ d : List Trop, shortestdistance A = Except.ok d ∧
        d.length = A.arcs.length ∧
        ∀ q : Nat, q < A.arcs.length →
          d.getD q wzero =
            wplus (finalWeight A q)
              ((arcsOf A q).foldr
                (fun a acc => wplus (wtimes a.weight (d.getD a.dest wzero)) acc)
                wzero)) := by
  constructor
  · rintro ⟨s, hs, q, hsq, hcyc, t, hqt, ht⟩
    have hbc : hasBadCycleB A = true := by
      unfold hasBadCycleB
      rw [hs]
      exact decide_eq_true ⟨q, (mem_reachSet A s q).2 hsq,
        (cycleAtB_iff A q).2 hcyc, t, (mem_reachSet A q t).2 hqt, ht⟩
    rw [shortestdistance, if_pos hbc]
  · intro hacyc hwf
    have hnb : ¬ hasBadCycleB A = true := by
      unfold hasBadCycleB
      rcases hstart : A.start with _ | s
      · simp
      · rw [decide_eq_true_eq]
        rintro ⟨q, -, hcb, -⟩
        exact hacyc q ((cycleAtB_iff A q).1 hcb)
    refine ⟨(List.range A.arcs.length).map (deltaIter A (bound A + 1)), ?_, ?_, ?_⟩
    · rw [shortestdistance, if_neg hnb]
    · rw [List.length_map, List.length_range]
    · intro q hq
      rw [getD_range_map _ _ q hq]
      have hstab : deltaIter A (bound A + 1) q = deltaIter A (bound A + 2) q :=
        delta_succ A hacyc (bound A + 1) q (rank_le_bound A q)
      have hstep : deltaIter A (bound A + 2) q =
          wplus (finalWeight A q)
            ((arcsOf A q).foldr
              (fun a acc =>
                wplus (wtimes a.weight (deltaIter A (bound A + 1) a.dest)) acc)
              wzero) := rfl
      rw [hstab, hstep]
      congr 1
      exact foldr_wplus_congr (arcsOf A q) (deltaIter A (bound A + 1))
        (fun x => ((List.range A.arcs.length).map
          (deltaIter A (bound A + 1))).getD x wzero)
        (fun a ha => (getD_range_map _ _ a.dest (hwf q a ha)).symm)

/-- A one-state automaton with a self-loop reaching its own final
state: the canonical cyclic input. -/
def cycFst : Automaton := ⟨[[⟨1, 1, wone, 0⟩]], [wone], some 0⟩

/-- A two-state acyclic automaton: one arc from the start to a final
state. -/
def acycFst : Automaton := ⟨[[⟨1, 1, wone, 1⟩], []], [wzero, wone], some 0⟩

theorem acyclic_of_check (A : Automaton)
    (h : ∀ q ∈ Finset.range (bound A), cycleAtB A q = false) :
    ∀ r : Nat, ¬ Relation.TransGen (stepRel A) r r := by
  intro r htg
  obtain ⟨b, ⟨a, ha, -⟩, -⟩ := Relation.TransGen.head'_iff.1 htg
  by_cases hr : r < bound A
  · have hfalse := h r (Finset.mem_range.2 hr)
    have htrue := (cycleAtB_iff A r).2 htg
    rw [hfalse] at htrue
    cases htrue
  · have hnil : arcsOf A r = [] := by
      apply arcsOf_eq_nil_of_le
      have : A.arcs.length ≤ bound A := Nat.le_add_right _ _
      omega
    rw [hnil] at ha
    cases ha

theorem wf_of_check (A : Automaton)
    (h : ∀ l ∈ A.arcs, ∀ a ∈ l, a.dest < A.arcs.length) :
    ∀ q : Nat, ∀ a ∈ arcsOf A q, a.dest < A.arcs.length := by
  intro q a ha
  obtain ⟨l, hl, hal⟩ := arcsOf_subset_mem A q a ha
  exact h l hl a hal

/-- C3 (witness): `shortestdistance_spec` applied to a concrete cyclic
automaton (one state, a self loop, final), which fails with
`CyclicAutomaton`, and to a concrete two-state acyclic automaton, which
succeeds with weights satisfying the fixed-point equations. -/
theorem shortestdistance_spec_witness :
    shortestdistance cycFst = Except.error EngineError.CyclicAutomaton ∧
    ∃ d : List Trop, shortestdistance acycFst = Except.ok d ∧
      d.length = acycFst.arcs.length ∧
      ∀ q : Nat, q < acycFst.arcs.length →
        d.getD q wzero =
          wplus (finalWeight acycFst q)
            ((arcsOf acycFst q).foldr
              (fun a acc => wplus (wtimes a.weight (d.getD a.dest wzero)) acc)
              wzero) := by
  constructor
  · refine (shortestdistance_spec cycFst).1
      ⟨0, rfl, 0, Relation.ReflTransGen.refl,
        Relation.TransGen.single ⟨⟨1, 1, wone, 0⟩, ?_, rfl⟩,
        0, Relation.ReflTransGen.refl, ?_⟩
    · decide
    · decide
  · exact (shortestdistance_spec acycFst).2
      (acyclic_of_check acycFst (by decide))
      (wf_of_check acycFst (by decide))

/-- An arc that consumes and emits nothing. -/
def isEps (a : Arc) : Bool := a.ilabel == 0 && a.olabel == 0

/-- The weighted epsilon closure of a state, by fuel-bounded unfolding
of epsilon-only paths (each entry is a reachable state with the
accumulated `times` weight of one epsilon path to it). -/
def epsClosure (A : Automaton) : Nat → Nat → List (Nat × Trop)
  | 0, q => [(q, wone)]
  | fuel + 1, q =>
      (q, wone) ::
        ((arcsOf A q).filter isEps).flatMap
          (fun a => (epsClosure A fuel a.dest).map
            (fun p => (p.1, wtimes a.weight p.2)))

/-- Modelled from the spec: epsilon removal.  Every state's non-epsilon
arcs and final weight are rewired through its weighted epsilon closure
(`times` along the closure path, `plus` across closure contributions to
the final weight), and the epsilon arcs disappear. -/
def rmeps (A : Automaton) : Automaton :=
  let n := A.arcs.length
  { arcs := (List.range n).map (fun q =>
      (epsClosure A n q).flatMap (fun p =>
        ((arcsOf A p.1).filter (fun a => !(isEps a))).map
          (fun a => ⟨a.ilabel, a.olabel, wtimes p.2 a.weight, a.dest⟩)))
    finals := (List.range n).map (fun q =>
      (epsClosure A n q).foldr
        (fun p acc => wplus (wtimes p.2 (finalWeight A p.1)) acc) wzero)
    start := A.start }

/-- The merging key of an arc: its labels and destination. -/
def arcKey (a : Arc) : Nat × Nat × Nat := (a.ilabel, a.olabel, a.dest)

/-- Relabel an arc's destination. -/
def mapDest (φ : Nat → Nat) (a : Arc) : Arc :=
  ⟨a.ilabel, a.olabel, a.weight, φ a.dest⟩

/-- Merge redundant parallel arcs: arcs sharing labels and destination
are merged into one, weights combined via `plus`, first-occurrence
order kept. -/
def canonArcs : List Arc → List Arc
  | [] => []
  | a :: t =>
      ⟨a.ilabel, a.olabel,
        (t.filter (fun b => decide (arcKey b = arcKey a))).foldr
          (fun b acc => wplus acc b.weight) a.weight,
        a.dest⟩ ::
        canonArcs (t.filter (fun b => !(decide (arcKey b = arcKey a))))
termination_by l => l.length
decreasing_by
  simp only [List.length_cons]
  exact Nat.lt_succ_of_le (List.length_filter_le _ _)

theorem canonArcs_key_mem (l : List Arc) :
    ∀ b ∈ canonArcs l, ∃ a ∈ l, arcKey b = arcKey a := by
  induction l using canonArcs.induct with
  | case1 =>
      intro b hb
      rw [canonArcs] at hb
      cases hb
  | case2 a t ih =>
      intro b hb
      rw [canonArcs] at hb
      rcases List.mem_cons.1 hb with rfl | hb'
      · exact ⟨a, List.mem_cons_self a t, rfl⟩
      · obtain ⟨c, hc, hk⟩ := ih b hb'
        exact ⟨c, List.mem_cons_of_mem a (List.mem_of_mem_filter hc), hk⟩

theorem canonArcs_nodupKeys (l : List Arc) :
    (canonArcs l).Pairwise (fun a b => arcKey a ≠ arcKey b) := by
  induction l using canonArcs.induct with
  | case1 =>
      rw [canonArcs]
      exact List.Pairwise.nil
  | case2 a t ih =>
      rw [canonArcs]
      refine List.Pairwise.cons ?_ ih
      intro b hb
      obtain ⟨c, hc, hk⟩ := canonArcs_key_mem _ b hb
      have hcne' : arcKey c ≠ arcKey a := by
        simpa using (List.mem_filter.1 hc).2
      rw [hk]
      exact fun h => hcne' (Eq.symm h)

theorem canonArcs_of_nodupKeys (l : List Arc)
    (h : l.Pairwise (fun a b => arcKey a ≠ arcKey b)) : canonArcs l = l := by
  induction l using canonArcs.induct with
  | case1 => rw [canonArcs]
  | case2 a t ih =>
      rw [canonArcs]
      obtain ⟨hhead, htail⟩ := List.pairwise_cons.1 h
      have hfilter : t.filter (fun b => decide (arcKey b = arcKey a)) = [] := by
        rw [List.filter_eq_nil_iff]
        intro b hb
        simpa using (hhead b hb).symm
      have hfilter' : t.filter (fun b => !(decide (arcKey b = arcKey a))) = t := by
        rw [List.filter_eq_self]
        intro b hb
        simpa using (hhead b hb).symm
      rw [hfilter, hfilter']
      rw [hfilter'] at ih
      rw [ih htail]
      rfl

/-- Apply a representative map (stored as a list; identity beyond its
length). -/
def fApply (f : List Nat) (q : Nat) : Nat := f.getD q q

/-- The signature of a state under the current representative map: its
canonical outgoing arcs with destinations replaced by their equivalence
class representative, together with its final weight.  Two states are
equivalent when their signatures coincide. -/
def sigOf (B : Automaton) (f : List Nat) (q : Nat) : List Arc × Trop :=
  (canonArcs ((arcsOf B q).map (mapDest (fApply f))), finalWeight B q)

/-- Find the first pair `p < q` of representative states with equal
signatures, if any. -/
def findMerge (B : Automaton) (f : List Nat) : Option (Nat × Nat) :=
  (List.range B.arcs.length).findSome? (fun q =>
    if fApply f q = q then
      ((List.range q).find? (fun p =>
        decide (fApply f p = p) && decide (sigOf B f p = sigOf B f q))).map
        (fun p => (p, q))
    else none)

/-- Merge state `q` into state `p`: every reference to `q` becomes `p`. -/
def applyMerge (f : List Nat) (p q : Nat) : List Nat :=
  f.map (fun v => if v = q then p else v)

/-- Repeatedly merge equal-signature states until none remain (the
fuel is an upper bound on the number of possible merges). -/
def mergeLoop (B : Automaton) : Nat → List Nat → List Nat
  | 0, f => f
  | fuel + 1, f =>
      match findMerge B f with
      | none => f
      | some pq => mergeLoop B fuel (applyMerge f pq.1 pq.2)

/-- The representative states of a map, in increasing order. -/
def repsOf (B : Automaton) (f : List Nat) : List Nat :=
  (List.range B.arcs.length).filter (fun q => decide (fApply f q = q))

/-- Quotient the automaton by a representative map: keep the
representative states (renumbered in increasing order), each with its
canonical class-mapped arcs, destinations renumbered accordingly. -/
def rebuild (B : Automaton) (f : List Nat) : Automaton :=
  { arcs := (repsOf B f).map (fun r =>
      (sigOf B f r).1.map (mapDest (fun d => (repsOf B f).indexOf d)))
    finals := (repsOf B f).map (fun r => finalWeight B r)
    start := B.start.map (fun s => (repsOf B f).indexOf (fApply f s)) }

/-- Merge equivalent states of `B` (signature fixpoint, then quotient). -/
def mergeStates (B : Automaton) : Automaton :=
  rebuild B (mergeLoop B B.arcs.length (List.range B.arcs.length))

/-- Modelled from the spec: optimization = epsilon removal followed by
state and arc minimization (merge equivalent states — equal final
weights and equal canonical arc lists through the destination
equivalence classes — and merge redundant parallel arcs, weights
combined via `plus`). -/
def optimize (A : Automaton) : Automaton := mergeStates (rmeps A)

theorem fApply_range (n r : Nat) : fApply (List.range n) r = r := by
  unfold fApply
  by_cases hr : r < n
  · rw [List.getD_eq_getElem?_getD, List.getElem?_range hr]
    rfl
  · exact List.getD_eq_default _ _ (by simpa using Nat.le_of_not_lt hr)

theorem fApply_applyMerge (f : List Nat) (p q r : Nat) (hq : q < f.length) :
    fApply (applyMerge f p q) r = if fApply f r = q then p else fApply f r := by
  unfold fApply applyMerge
  by_cases hr : r < f.length
  · rw [List.getD_eq_getElem?_getD, List.getElem?_map,
      List.getElem?_eq_getElem hr]
    rw [List.getD_eq_getElem f r hr]
    rfl
  · have hr' : f.length ≤ r := Nat.le_of_not_lt hr
    rw [List.getD_eq_default _ _ (by simpa using hr'),
      List.getD_eq_default _ _ hr']
    rw [if_neg]
    omega

theorem findMerge_eq_some (B : Automaton) (f : List Nat) (p q : Nat)
    (h : findMerge B f = some (p, q)) :
    p < q ∧ q < B.arcs.length ∧ fApply f p = p ∧ fApply f q = q ∧
      sigOf B f p = sigOf B f q := by
  unfold findMerge at h
  obtain ⟨x, hx, hfx⟩ := List.exists_of_findSome?_eq_some h
  by_cases hlive : fApply f x = x
  · rw [if_pos hlive] at hfx
    obtain ⟨p', hfind, hpq⟩ := Option.map_eq_some'.1 hfx
    injection hpq with hp1 hp2
    rw [hp1] at hfind
    rw [hp2] at hx hlive hfind
    have hp' : p < q := List.mem_range.1 (List.mem_of_find?_eq_some hfind)
    have hpred := List.find?_some hfind
    rw [Bool.and_eq_true, decide_eq_true_eq, decide_eq_true_eq] at hpred
    exact ⟨hp', List.mem_range.1 hx, hpred.1, hlive, hpred.2⟩
  · rw [if_neg hlive] at hfx
    cases hfx

theorem findMerge_eq_none (B : Automaton) (f : List Nat)
    (h : findMerge B f = none) :
    ∀ q : Nat, q < B.arcs.length → fApply f q = q →
      ∀ p : Nat, p < q → fApply f p = p → sigOf B f p ≠ sigOf B f q := by
  unfold findMerge at h
  rw [List.findSome?_eq_none_iff] at h
  intro q hq hfq p hp hfp hsig
  have hx := h q (List.mem_range.2 hq)
  rw [if_pos hfq] at hx
  have hfind := Option.map_eq_none'.1 hx
  have := List.find?_eq_none.1 hfind p (List.mem_range.2 hp)
  apply this
  rw [Bool.and_eq_true, decide_eq_true_eq, decide_eq_true_eq]
  exact ⟨hfp, hsig⟩

/-- The set of representative ("live") states of a map. -/
def liveSet (n : Nat) (f : List Nat) : Finset ℕ :=
  (Finset.range n).filter (fun q => fApply f q = q)

theorem liveSet_applyMerge (n : Nat) (f : List Nat) (p q : Nat)
    (hlen : f.length = n) (hq : q < n) (hp : fApply f p = p) (hpq : p ≠ q) :
    liveSet n (applyMerge f p q) = (liveSet n f).erase q := by
  have hqf : q < f.length := by omega
  ext r
  rw [liveSet, liveSet, Finset.mem_erase, Finset.mem_filter, Finset.mem_filter]
  rw [fApply_applyMerge f p q r hqf]
  by_cases hc : fApply f r = q
  · rw [if_pos hc]
    constructor
    · rintro ⟨hr, rfl⟩
      exact absurd (hp.symm.trans hc) hpq
    · rintro ⟨hne, hr, hlive⟩
      rw [hlive] at hc
      exact absurd hc hne
  · rw [if_neg hc]
    constructor
    · rintro ⟨hr, hlive⟩
      refine ⟨?_, hr, hlive⟩
      rintro rfl
      exact hc hlive
    · rintro ⟨-, hr, hlive⟩
      exact ⟨hr, hlive⟩

theorem mergeLoop_spec (B : Automaton) :
    ∀ (fuel : Nat) (f : List Nat),
      f.length = B.arcs.length →
      (∀ r : Nat, r < B.arcs.length → fApply f r ≤ r) →
      (∀ r : Nat, fApply f (fApply f r) = fApply f r) →
      (liveSet B.arcs.length f).card ≤ fuel →
      (mergeLoop B fuel f).length = B.arcs.length ∧
        (∀ r : Nat, r < B.arcs.length → fApply (mergeLoop B fuel f) r ≤ r) ∧
        (∀ r : Nat, fApply (mergeLoop B fuel f) (fApply (mergeLoop B fuel f) r) =
          fApply (mergeLoop B fuel f) r) ∧
        findMerge B (mergeLoop B fuel f) = none := by
  intro fuel
  induction fuel with
  | zero =>
      intro f hlen hle hid hcard
      rcases Nat.eq_zero_or_pos B.arcs.length with hn | hn
      · refine ⟨hlen, hle, hid, ?_⟩
        unfold findMerge
        rw [hn]
        rfl
      · exfalso
        have h0 : (0 : ℕ) ∈ liveSet B.arcs.length f := by
          rw [liveSet, Finset.mem_filter, Finset.mem_range]
          exact ⟨hn, Nat.le_zero.1 (hle 0 hn)⟩
        have := Finset.card_pos.2 ⟨0, h0⟩
        omega
  | succ k ih =>
      intro f hlen hle hid hcard
      rcases hfm : findMerge B f with _ | pq
      · have hres : mergeLoop B (k + 1) f = f := by
          conv_lhs => rw [mergeLoop, hfm]
        rw [hres]
        exact ⟨hlen, hle, hid, hfm⟩
      · obtain ⟨p, q⟩ := pq
        obtain ⟨hplt, hqlt, hfp, hfq, -⟩ := findMerge_eq_some B f p q hfm
        have hres : mergeLoop B (k + 1) f = mergeLoop B k (applyMerge f p q) := by
          conv_lhs => rw [mergeLoop, hfm]
        have hqf : q < f.length := by omega
        have hlen' : (applyMerge f p q).length = B.arcs.length := by
          rw [applyMerge, List.length_map, hlen]
        have hle' : ∀ r : Nat, r < B.arcs.length → fApply (applyMerge f p q) r ≤ r := by
          intro r hr
          rw [fApply_applyMerge f p q r hqf]
          by_cases hc : fApply f r = q
          · rw [if_pos hc]
            have := hle r hr
            omega
          · rw [if_neg hc]
            exact hle r hr
        have hid' : ∀ r : Nat,
            fApply (applyMerge f p q) (fApply (applyMerge f p q) r) =
              fApply (applyMerge f p q) r := by
          intro r
          rw [fApply_applyMerge f p q r hqf]
          by_cases hc : fApply f r = q
          · rw [if_pos hc, fApply_applyMerge f p q p hqf]
            rw [if_neg (by rw [hfp]; omega)]
            exact hfp
          · rw [if_neg hc, fApply_applyMerge f p q _ hqf]
            rw [hid r]
            rw [if_neg hc]
        have hcard' : (liveSet B.arcs.length (applyMerge f p q)).card ≤ k := by
          rw [liveSet_applyMerge B.arcs.length f p q hlen hqlt hfp (by omega)]
          have hqmem : q ∈ liveSet B.arcs.length f := by
            rw [liveSet, Finset.mem_filter, Finset.mem_range]
            exact ⟨hqlt, hfq⟩
          rw [Finset.card_erase_of_mem hqmem]
          omega
        rw [hres]
        exact ih (applyMerge f p q) hlen' hle' hid' hcard'

theorem getD_map_lt {α β : Type} (l : List α) (g : α → β) (d : β) (x : Nat)
    (h : x < l.length) : (l.map g).getD x d = g (l.get ⟨x, h⟩) := by
  rw [List.getD_eq_getElem?_getD, List.getElem?_map, List.getElem?_eq_getElem h]
  rw [List.get_eq_getElem]
  rfl

theorem getD_map_ge {α β : Type} (l : List α) (g : α → β) (d : β) (x : Nat)
    (h : l.length ≤ x) : (l.map g).getD x d = d :=
  List.getD_eq_default _ _ (by simpa using h)

theorem range_map_arcsOf (X : Automaton) :
    (List.range X.arcs.length).map (fun q => arcsOf X q) = X.arcs := by
  refine List.ext_getElem (by simp) ?_
  intro i h1 h2
  rw [List.getElem_map]
  have hi : i < X.arcs.length := h2
  simp only [List.getElem_range]
  rw [arcsOf, List.getD_eq_getElem X.arcs [] hi]

theorem range_map_finals (X : Automaton) (h : X.finals.length = X.arcs.length) :
    (List.range X.arcs.length).map (fun q => finalWeight X q) = X.finals := by
  refine List.ext_getElem (by simp [h]) ?_
  intro i h1 h2
  rw [List.getElem_map]
  have hi : i < X.finals.length := h2
  simp only [List.getElem_range]
  rw [finalWeight, List.getD_eq_getElem X.finals wzero hi]

theorem map_mapDest_id (l : List Arc) (g : Nat → Nat)
    (h : ∀ a ∈ l, g a.dest = a.dest) : l.map (mapDest g) = l := by
  induction l with
  | nil => rfl
  | cons a t ih =>
      have ha := h a (List.mem_cons_self a t)
      have ht := ih (fun b hb => h b (List.mem_cons_of_mem a hb))
      rw [List.map_cons, ht, mapDest, ha]

theorem arcKey_dest {a b : Arc} (h : arcKey a = arcKey b) :
    a.ilabel = b.ilabel ∧ a.olabel = b.olabel ∧ a.dest = b.dest := by
  unfold arcKey at h
  rw [Prod.mk.injEq, Prod.mk.injEq] at h
  exact ⟨h.1, h.2.1, h.2.2⟩

theorem nodupKeys_map_mapDest (l : List Arc) (g : Nat → Nat)
    (hinj : ∀ a ∈ l, ∀ b ∈ l, g a.dest = g b.dest → a.dest = b.dest)
    (h : l.Pairwise (fun a b => arcKey a ≠ arcKey b)) :
    (l.map (mapDest g)).Pairwise (fun a b => arcKey a ≠ arcKey b) := by
  rw [List.pairwise_map]
  rw [List.pairwise_iff_get] at h ⊢
  intro i j hij heq
  obtain ⟨h1, h2, h3⟩ := arcKey_dest heq
  apply h i j hij
  unfold arcKey mapDest at *
  simp only [Prod.mk.injEq]
  refine ⟨h1, h2, hinj _ (l.get_mem i.1 i.2) _ (l.get_mem j.1 j.2) h3⟩

theorem map_mapDest_inj (g : Nat → Nat) :
    ∀ (l1 l2 : List Arc),
      (∀ a ∈ l1, ∀ b ∈ l2, g a.dest = g b.dest → a.dest = b.dest) →
      l1.map (mapDest g) = l2.map (mapDest g) → l1 = l2 := by
  intro l1
  induction l1 with
  | nil =>
      intro l2 hinj heq
      cases l2 with
      | nil => rfl
      | cons b t => cases heq
  | cons a t ih =>
      intro l2 hinj heq
      cases l2 with
      | nil => cases heq
      | cons b t2 =>
          rw [List.map_cons, List.map_cons] at heq
          injection heq with hhead htail
          unfold mapDest at hhead
          injection hhead with h1 h2 h3 h4
          have hd : a.dest = b.dest :=
            hinj a (List.mem_cons_self a t) b (List.mem_cons_self b t2) h4
          have hab : a = b := by
            cases a
            cases b
            simp only [Arc.mk.injEq]
            exact ⟨h1, h2, h3, hd⟩
          rw [hab]
          rw [ih t2 (fun x hx y hy => hinj x (List.mem_cons_of_mem a hx) y
            (List.mem_cons_of_mem b hy)) htail]

theorem mem_repsOf (B : Automaton) (f : List Nat) (r : Nat) :
    r ∈ repsOf B f ↔ r < B.arcs.length ∧ fApply f r = r := by
  unfold repsOf
  rw [List.mem_filter, List.mem_range]
  simp

theorem repsOf_nodup (B : Automaton) (f : List Nat) : (repsOf B f).Nodup :=
  List.Nodup.filter _ (List.nodup_range _)

theorem repsOf_sorted (B : Automaton) (f : List Nat) :
    (repsOf B f).Pairwise (fun a b => a < b) :=
  List.Pairwise.filter _ (List.pairwise_lt_range _)

theorem indexOf_inj (l : List Nat) (x y : Nat) (hx : x ∈ l) (hy : y ∈ l)
    (h : l.indexOf x = l.indexOf y) : x = y := by
  have h1 := List.indexOf_get (List.indexOf_lt_length.2 hx)
  have h2 := List.indexOf_get (List.indexOf_lt_length.2 hy)
  rw [← h1, ← h2]
  congr 1
  exact Fin.ext h

theorem arcsOf_rebuild (B : Automaton) (f : List Nat) (x : Nat)
    (hx : x < (repsOf B f).length) :
    arcsOf (rebuild B f) x =
      ((sigOf B f ((repsOf B f).get ⟨x, hx⟩)).1).map
        (mapDest (fun d => (repsOf B f).indexOf d)) := by
  unfold rebuild arcsOf
  exact getD_map_lt _ _ _ x hx

theorem arcsOf_rebuild_ge (B : Automaton) (f : List Nat) (x : Nat)
    (hx : (repsOf B f).length ≤ x) : arcsOf (rebuild B f) x = [] := by
  unfold rebuild arcsOf
  exact getD_map_ge _ _ _ x hx

theorem finalWeight_rebuild (B : Automaton) (f : List Nat) (x : Nat)
    (hx : x < (repsOf B f).length) :
    finalWeight (rebuild B f) x = finalWeight B ((repsOf B f).get ⟨x, hx⟩) := by
  unfold rebuild finalWeight
  exact getD_map_lt _ _ _ x hx

theorem rebuild_arcs_length (B : Automaton) (f : List Nat) :
    (rebuild B f).arcs.length = (repsOf B f).length := by
  unfold rebuild
  exact List.length_map _ _

theorem rebuild_finals_length (B : Automaton) (f : List Nat) :
    (rebuild B f).finals.length = (repsOf B f).length := by
  unfold rebuild
  exact List.length_map _ _

theorem sig_dest_mem_reps (B : Automaton) (f : List Nat)
    (hle : ∀ r : Nat, r < B.arcs.length → fApply f r ≤ r)
    (hid : ∀ r : Nat, fApply f (fApply f r) = fApply f r)
    (hwf : ∀ l ∈ B.arcs, ∀ a ∈ l, a.dest < B.arcs.length)
    (r : Nat) : ∀ b ∈ (sigOf B f r).1, b.dest ∈ repsOf B f := by
  intro b hb
  obtain ⟨a, ha, hk⟩ := canonArcs_key_mem _ b hb
  obtain ⟨a0, ha0, rfl⟩ := List.mem_map.1 ha
  obtain ⟨-, -, hd⟩ := arcKey_dest hk
  obtain ⟨l, hl, hal⟩ := arcsOf_subset_mem B r a0 ha0
  have hdn : a0.dest < B.arcs.length := hwf l hl a0 hal
  rw [mem_repsOf, hd]
  simp only [mapDest]
  have hlev : fApply f a0.dest ≤ a0.dest := hle a0.dest hdn
  exact ⟨by omega, hid a0.dest⟩

theorem arcsOf_rebuild_canonical (B : Automaton) (f : List Nat)
    (hle : ∀ r : Nat, r < B.arcs.length → fApply f r ≤ r)
    (hid : ∀ r : Nat, fApply f (fApply f r) = fApply f r)
    (hwf : ∀ l ∈ B.arcs, ∀ a ∈ l, a.dest < B.arcs.length)
    (x : Nat) (hx : x < (repsOf B f).length) :
    canonArcs (arcsOf (rebuild B f) x) = arcsOf (rebuild B f) x := by
  rw [arcsOf_rebuild B f x hx]
  apply canonArcs_of_nodupKeys
  apply nodupKeys_map_mapDest
  · intro a ha b hb hab
    exact indexOf_inj _ _ _
      (sig_dest_mem_reps B f hle hid hwf _ a ha)
      (sig_dest_mem_reps B f hle hid hwf _ b hb) hab
  · exact canonArcs_nodupKeys _

/-- An automaton is epsilon-free when none of its arcs is an epsilon
arc. -/
def epsFree (X : Automaton) : Prop :=
  ∀ l ∈ X.arcs, ∀ a ∈ l, isEps a = false

theorem epsFree_arcsOf (X : Automaton) (h : epsFree X) (q : Nat) :
    ∀ a ∈ arcsOf X q, isEps a = false := by
  intro a ha
  obtain ⟨l, hl, hal⟩ := arcsOf_subset_mem X q a ha
  exact h l hl a hal

theorem isEps_of_labels {a b : Arc} (h1 : a.ilabel = b.ilabel)
    (h2 : a.olabel = b.olabel) : isEps a = isEps b := by
  unfold isEps
  rw [h1, h2]

theorem epsFree_rmeps (A : Automaton) : epsFree (rmeps A) := by
  intro l hl a ha
  unfold rmeps at hl
  obtain ⟨q, -, rfl⟩ := List.mem_map.1 hl
  obtain ⟨p, -, hp⟩ := List.mem_flatMap.1 ha
  obtain ⟨a0, ha0, rfl⟩ := List.mem_map.1 hp
  have h0 : (!(isEps a0)) = true := (List.mem_filter.1 ha0).2
  have : isEps a0 = false := by simpa using h0
  rw [← this]
  rfl

theorem epsFree_rebuild (B : Automaton) (f : List Nat) (h : epsFree B) :
    epsFree (rebuild B f) := by
  intro l hl a ha
  unfold rebuild at hl
  obtain ⟨r, -, rfl⟩ := List.mem_map.1 hl
  obtain ⟨b, hb, rfl⟩ := List.mem_map.1 ha
  obtain ⟨c, hc, hk⟩ := canonArcs_key_mem _ b hb
  obtain ⟨c0, hc0, rfl⟩ := List.mem_map.1 hc
  obtain ⟨h1, h2, -⟩ := arcKey_dest hk
  have hc0e : isEps c0 = false := epsFree_arcsOf B h r c0 hc0
  calc isEps (mapDest (fun d => (repsOf B f).indexOf d) b)
      = isEps b := rfl
    _ = isEps c0 := isEps_of_labels h1 h2
    _ = false := hc0e

theorem epsClosure_of_epsFree (X : Automaton) (h : epsFree X) :
    ∀ (fuel q : Nat), epsClosure X fuel q = [(q, wone)] := by
  intro fuel q
  cases fuel with
  | zero => rfl
  | succ k =>
      unfold epsClosure
      have hf : (arcsOf X q).filter isEps = [] := by
        rw [List.filter_eq_nil_iff]
        intro a ha
        rw [epsFree_arcsOf X h q a ha]
        exact Bool.false_ne_true
      rw [hf]
      rfl

theorem Automaton_eq (A B : Automaton) (h1 : A.arcs = B.arcs)
    (h2 : A.finals = B.finals) (h3 : A.start = B.start) : A = B := by
  cases A
  cases B
  simp only [] at h1 h2 h3
  rw [Automaton.mk.injEq]
  exact ⟨h1, h2, h3⟩

theorem wtimes_wone (w : Trop) : wtimes wone w = w := by
  unfold wtimes wone
  exact zero_add w

theorem wplus_wzero (w : Trop) : wplus w wzero = w := by
  unfold wplus wzero
  exact min_eq_left le_top

theorem rmeps_eq_self (X : Automaton) (hf : epsFree X)
    (hlen : X.finals.length = X.arcs.length) : rmeps X = X := by
  apply Automaton_eq
  · show (List.range X.arcs.length).map (fun q =>
        (epsClosure X X.arcs.length q).flatMap (fun p =>
          ((arcsOf X p.1).filter (fun a => !(isEps a))).map
            (fun a => ⟨a.ilabel, a.olabel, wtimes p.2 a.weight, a.dest⟩))) =
      X.arcs
    have hstep : ∀ q ∈ List.range X.arcs.length,
        (epsClosure X X.arcs.length q).flatMap (fun p =>
          ((arcsOf X p.1).filter (fun a => !(isEps a))).map
            (fun a => (⟨a.ilabel, a.olabel, wtimes p.2 a.weight, a.dest⟩ : Arc))) =
        arcsOf X q := by
      intro q hq
      rw [epsClosure_of_epsFree X hf]
      rw [List.flatMap_cons, List.flatMap_nil, List.append_nil]
      have hfil : (arcsOf X q).filter (fun a => !(isEps a)) = arcsOf X q := by
        rw [List.filter_eq_self]
        intro a ha
        rw [epsFree_arcsOf X hf q a ha]
        rfl
      rw [hfil]
      have hpt : ∀ a ∈ arcsOf X q,
          (⟨a.ilabel, a.olabel, wtimes wone a.weight, a.dest⟩ : Arc) = a := by
        intro a ha
        rw [wtimes_wone]
      rw [List.map_congr_left hpt]
      exact List.map_id _
    exact (List.map_congr_left hstep).trans (range_map_arcsOf X)
  · show (List.range X.arcs.length).map (fun q =>
        (epsClosure X X.arcs.length q).foldr
          (fun p acc => wplus (wtimes p.2 (finalWeight X p.1)) acc) wzero) =
      X.finals
    have hstep : ∀ q ∈ List.range X.arcs.length,
        (epsClosure X X.arcs.length q).foldr
          (fun p acc => wplus (wtimes p.2 (finalWeight X p.1)) acc) wzero =
        finalWeight X q := by
      intro q hq
      rw [epsClosure_of_epsFree X hf]
      show wplus (wtimes wone (finalWeight X q)) wzero = finalWeight X q
      rw [wtimes_wone, wplus_wzero]
    exact (List.map_congr_left hstep).trans (range_map_finals X hlen)
  · rfl

theorem rmeps_arcs_length (A : Automaton) :
    (rmeps A).arcs.length = A.arcs.length := by
  unfold rmeps
  rw [List.length_map, List.length_range]

theorem rmeps_finals_length (A : Automaton) :
    (rmeps A).finals.length = (rmeps A).arcs.length := by
  unfold rmeps
  rw [List.length_map, List.length_map]

theorem rmeps_start (A : Automaton) : (rmeps A).start = A.start := rfl

theorem rmeps_wf (A : Automaton)
    (hwf : ∀ l ∈ A.arcs, ∀ a ∈ l, a.dest < A.arcs.length) :
    ∀ l ∈ (rmeps A).arcs, ∀ a ∈ l, a.dest < (rmeps A).arcs.length := by
  intro l hl a ha
  rw [rmeps_arcs_length]
  unfold rmeps at hl
  obtain ⟨q, -, rfl⟩ := List.mem_map.1 hl
  obtain ⟨p, -, hp⟩ := List.mem_flatMap.1 ha
  obtain ⟨a0, ha0, rfl⟩ := List.mem_map.1 hp
  have ha0' : a0 ∈ arcsOf A p.1 := List.mem_of_mem_filter ha0
  obtain ⟨l0, hl0, hal0⟩ := arcsOf_subset_mem A p.1 a0 ha0'
  exact hwf l0 hl0 a0 hal0

theorem sigOf_rebuild (B : Automaton) (f : List Nat)
    (hle : ∀ r : Nat, r < B.arcs.length → fApply f r ≤ r)
    (hid : ∀ r : Nat, fApply f (fApply f r) = fApply f r)
    (hwf : ∀ l ∈ B.arcs, ∀ a ∈ l, a.dest < B.arcs.length)
    (x : Nat) (hx : x < (repsOf B f).length) :
    sigOf (rebuild B f) (List.range (rebuild B f).arcs.length) x =
      (((sigOf B f ((repsOf B f).get ⟨x, hx⟩)).1).map
          (mapDest (fun d => (repsOf B f).indexOf d)),
        finalWeight B ((repsOf B f).get ⟨x, hx⟩)) := by
  unfold sigOf
  rw [map_mapDest_id _ _ (fun a _ => fApply_range _ _)]
  rw [show canonArcs (arcsOf (rebuild B f) x) = arcsOf (rebuild B f) x from
    arcsOf_rebuild_canonical B f hle hid hwf x hx]
  rw [arcsOf_rebuild B f x hx, finalWeight_rebuild B f x hx]
  rfl

theorem mergeLoop_of_none (B : Automaton) (fuel : Nat) (f : List Nat)
    (h : findMerge B f = none) : mergeLoop B fuel f = f := by
  cases fuel with
  | zero => rfl
  | succ k => conv_lhs => rw [mergeLoop, h]

theorem indexOf_range (n d : Nat) (h : d < n) : (List.range n).indexOf d = d := by
  have hm : d ∈ List.range n := List.mem_range.2 h
  have hlt := List.indexOf_lt_length.2 hm
  have hg := List.indexOf_get hlt
  rw [List.get_eq_getElem] at hg
  simp only [List.getElem_range] at hg
  exact hg

theorem rebuild_wf (B : Automaton) (f : List Nat)
    (hle : ∀ r : Nat, r < B.arcs.length → fApply f r ≤ r)
    (hid : ∀ r : Nat, fApply f (fApply f r) = fApply f r)
    (hwf : ∀ l ∈ B.arcs, ∀ a ∈ l, a.dest < B.arcs.length) :
    ∀ l ∈ (rebuild B f).arcs, ∀ a ∈ l, a.dest < (rebuild B f).arcs.length := by
  intro l hl a ha
  rw [rebuild_arcs_length]
  unfold rebuild at hl
  obtain ⟨r, -, rfl⟩ := List.mem_map.1 hl
  obtain ⟨b, hb, rfl⟩ := List.mem_map.1 ha
  show (repsOf B f).indexOf b.dest < (repsOf B f).length
  exact List.indexOf_lt_length.2 (sig_dest_mem_reps B f hle hid hwf r b hb)

theorem rebuild_start_lt (B : Automaton) (f : List Nat)
    (hle : ∀ r : Nat, r < B.arcs.length → fApply f r ≤ r)
    (hid : ∀ r : Nat, fApply f (fApply f r) = fApply f r)
    (hstart : ∀ s : Nat, B.start = some s → s < B.arcs.length) :
    ∀ s : Nat, (rebuild B f).start = some s → s < (rebuild B f).arcs.length := by
  intro s hs
  rw [rebuild_arcs_length]
  unfold rebuild at hs
  obtain ⟨s0, hB0, rfl⟩ := Option.map_eq_some'.1 hs
  have hs0 : s0 < B.arcs.length := hstart s0 hB0
  have hmem : fApply f s0 ∈ repsOf B f := by
    rw [mem_repsOf]
    have := hle s0 hs0
    exact ⟨by omega, hid s0⟩
  exact List.indexOf_lt_length.2 hmem

theorem findMerge_rebuild_none (B : Automaton) (f : List Nat)
    (hle : ∀ r : Nat, r < B.arcs.length → fApply f r ≤ r)
    (hid : ∀ r : Nat, fApply f (fApply f r) = fApply f r)
    (hwf : ∀ l ∈ B.arcs, ∀ a ∈ l, a.dest < B.arcs.length)
    (hnone : findMerge B f = none) :
    findMerge (rebuild B f) (List.range (rebuild B f).arcs.length) = none := by
  rcases hfm : findMerge (rebuild B f) (List.range (rebuild B f).arcs.length)
    with _ | pq
  · rfl
  · exfalso
    obtain ⟨p, q⟩ := pq
    obtain ⟨hplt, hqlt, -, -, hsig⟩ := findMerge_eq_some _ _ p q hfm
    have hq' : q < (repsOf B f).length := by
      rw [← rebuild_arcs_length B f]
      exact hqlt
    have hp' : p < (repsOf B f).length := by omega
    rw [sigOf_rebuild B f hle hid hwf p hp',
      sigOf_rebuild B f hle hid hwf q hq', Prod.mk.injEq] at hsig
    obtain ⟨harcs, hfin⟩ := hsig
    have harcs' : (sigOf B f ((repsOf B f).get ⟨p, hp'⟩)).1 =
        (sigOf B f ((repsOf B f).get ⟨q, hq'⟩)).1 := by
      refine map_mapDest_inj _ _ _ ?_ harcs
      intro a ha b hb hab
      exact indexOf_inj _ _ _
        (sig_dest_mem_reps B f hle hid hwf _ a ha)
        (sig_dest_mem_reps B f hle hid hwf _ b hb) hab
    have hrp_lt : (repsOf B f).get ⟨p, hp'⟩ < (repsOf B f).get ⟨q, hq'⟩ :=
      List.pairwise_iff_get.1 (repsOf_sorted B f) ⟨p, hp'⟩ ⟨q, hq'⟩
        (Fin.mk_lt_mk.2 hplt)
    have hrp := (mem_repsOf B f _).1 ((repsOf B f).get_mem p hp')
    have hrq := (mem_repsOf B f _).1 ((repsOf B f).get_mem q hq')
    apply findMerge_eq_none B f hnone _ hrq.1 hrq.2 _ hrp_lt hrp.2
    show sigOf B f ((repsOf B f).get ⟨p, hp'⟩) =
      sigOf B f ((repsOf B f).get ⟨q, hq'⟩)
    have h1 := harcs'
    have h2 : (sigOf B f ((repsOf B f).get ⟨p, hp'⟩)).2 =
        (sigOf B f ((repsOf B f).get ⟨q, hq'⟩)).2 := hfin
    exact Prod.ext h1 h2

theorem rebuild_range_eq_self (C : Automaton)
    (hfl : C.finals.length = C.arcs.length)
    (hdest : ∀ q : Nat, ∀ a ∈ arcsOf C q, a.dest < C.arcs.length)
    (hcanon : ∀ q : Nat, q < C.arcs.length → canonArcs (arcsOf C q) = arcsOf C q)
    (hstart : ∀ s : Nat, C.start = some s → s < C.arcs.length) :
    rebuild C (List.range C.arcs.length) = C := by
  have hreps : repsOf C (List.range C.arcs.length) = List.range C.arcs.length := by
    unfold repsOf
    rw [List.filter_eq_self]
    intro q hq
    simp [fApply_range]
  have hsig1 : ∀ r : Nat, r < C.arcs.length →
      (sigOf C (List.range C.arcs.length) r).1 = arcsOf C r := by
    intro r hr
    show canonArcs ((arcsOf C r).map (mapDest (fApply (List.range C.arcs.length)))) =
      arcsOf C r
    rw [map_mapDest_id _ _ (fun a _ => fApply_range _ _)]
    exact hcanon r hr
  apply Automaton_eq
  · show (repsOf C (List.range C.arcs.length)).map _ = C.arcs
    rw [hreps]
    have hstep : ∀ r ∈ List.range C.arcs.length,
        (sigOf C (List.range C.arcs.length) r).1.map
          (mapDest (fun d => (List.range C.arcs.length).indexOf d)) =
        arcsOf C r := by
      intro r hr
      have hr' : r < C.arcs.length := List.mem_range.1 hr
      rw [hsig1 r hr']
      apply map_mapDest_id
      intro a ha
      exact indexOf_range _ _ (hdest r a ha)
    exact (List.map_congr_left hstep).trans (range_map_arcsOf C)
  · show (repsOf C (List.range C.arcs.length)).map _ = C.finals
    rw [hreps]
    exact range_map_finals C hfl
  · show C.start.map _ = C.start
    rcases hs : C.start with _ | s
    · rfl
    · have hs' : s < C.arcs.length := hstart s hs
      rw [Option.map_some']
      rw [hreps, fApply_range, indexOf_range _ _ hs']

/-- C6: optimization (epsilon removal followed by state and arc
minimization) is idempotent on well-formed automata (valid arc
destinations and start state): re-optimizing an already-optimized
automaton leaves it unchanged. -/
theorem optimize_idempotent (A : Automaton)
    (hwf : ∀ l ∈ A.arcs, ∀ a ∈ l, a.dest < A.arcs.length)
    (hstart : ∀ s : Nat, A.start = some s → s < A.arcs.length) :
    optimize (optimize A) = optimize A := by
  have hwfB := rmeps_wf A hwf
  have hstartB : ∀ s : Nat, (rmeps A).start = some s → s < (rmeps A).arcs.length := by
    intro s hs
    rw [rmeps_start] at hs
    rw [rmeps_arcs_length]
    exact hstart s hs
  have hcard : (liveSet (rmeps A).arcs.length
      (List.range (rmeps A).arcs.length)).card ≤ (rmeps A).arcs.length := by
    unfold liveSet
    calc ((Finset.range (rmeps A).arcs.length).filter _).card
        ≤ (Finset.range (rmeps A).arcs.length).card := Finset.card_filter_le _ _
      _ = (rmeps A).arcs.length := Finset.card_range _
  obtain ⟨hlenf, hlef, hidf, hnonef⟩ :=
    mergeLoop_spec (rmeps A) (rmeps A).arcs.length
      (List.range (rmeps A).arcs.length) (List.length_range _)
      (fun r _ => le_of_eq (fApply_range _ r))
      (fun r => by rw [fApply_range, fApply_range]) hcard
  have hopt : optimize A =
      rebuild (rmeps A)
        (mergeLoop (rmeps A) (rmeps A).arcs.length
          (List.range (rmeps A).arcs.length)) := rfl
  rw [hopt]
  have hC_eps : epsFree (rebuild (rmeps A) (mergeLoop (rmeps A)
      (rmeps A).arcs.length (List.range (rmeps A).arcs.length))) :=
    epsFree_rebuild _ _ (epsFree_rmeps A)
  have hC_fl := (rebuild_finals_length (rmeps A) (mergeLoop (rmeps A)
      (rmeps A).arcs.length (List.range (rmeps A).arcs.length))).trans
    (rebuild_arcs_length _ _).symm
  have hC_wf := rebuild_wf _ _ hlef hidf hwfB
  have hC_dest := wf_of_check _ hC_wf
  have hC_start := rebuild_start_lt _ _ hlef hidf hstartB
  have hC_canon : ∀ q : Nat, q < (rebuild (rmeps A) (mergeLoop (rmeps A)
      (rmeps A).arcs.length (List.range (rmeps A).arcs.length))).arcs.length →
      canonArcs (arcsOf (rebuild (rmeps A) (mergeLoop (rmeps A)
        (rmeps A).arcs.length (List.range (rmeps A).arcs.length))) q) =
      arcsOf (rebuild (rmeps A) (mergeLoop (rmeps A)
        (rmeps A).arcs.length (List.range (rmeps A).arcs.length))) q := by
    intro q hq
    rw [rebuild_arcs_length] at hq
    exact arcsOf_rebuild_canonical _ _ hlef hidf hwfB q hq
  have hC_none := findMerge_rebuild_none _ _ hlef hidf hwfB hnonef
  calc optimize (rebuild (rmeps A) (mergeLoop (rmeps A)
        (rmeps A).arcs.length (List.range (rmeps A).arcs.length)))
      = mergeStates (rmeps (rebuild (rmeps A) (mergeLoop (rmeps A)
          (rmeps A).arcs.length (List.range (rmeps A).arcs.length)))) := rfl
    _ = mergeStates (rebuild (rmeps A) (mergeLoop (rmeps A)
          (rmeps A).arcs.length (List.range (rmeps A).arcs.length))) := by
        rw [rmeps_eq_self _ hC_eps hC_fl]
    _ = rebuild (rebuild (rmeps A) (mergeLoop (rmeps A)
          (rmeps A).arcs.length (List.range (rmeps A).arcs.length)))
          (List.range (rebuild (rmeps A) (mergeLoop (rmeps A)
            (rmeps A).arcs.length
            (List.range (rmeps A).arcs.length))).arcs.length) := by
        rw [mergeStates, mergeLoop_of_none _ _ _ hC_none]
    _ = rebuild (rmeps A) (mergeLoop (rmeps A)
          (rmeps A).arcs.length (List.range (rmeps A).arcs.length)) :=
        rebuild_range_eq_self _ hC_fl hC_dest hC_canon hC_start

/-- C6 (witness): `optimize_idempotent` applied to a concrete
well-formed two-state automaton. -/
theorem optimize_idempotent_witness :
    optimize (optimize acycFst) = optimize acycFst := by
  refine optimize_idempotent acycFst (by decide) ?_
  intro s hs
  injection hs with hs
  rw [← hs]
  decide

end FstSpec
